import Mathlib

/-!
Verification of the static-page optimization pipeline of
`One-Click-Static-Page-Compression-Tool`.

The development shallowly embeds the pipeline code:

* `src/unnamed/part_000` (`lib/utils.js`): `getFileSize`, `deepMerge`,
  `validateOptions`, `calculateCompressionRatio`;
* `src/unnamed/part_004` (`index.js`, class `StaticPageOptimizer`):
  the constructor's option defaulting, `optimize`, `createBackup`,
  `copyDirectory`, the per-category loops (`processHTML` / `processCSS` /
  `processJS` / `processImages`), `updateStats`, `showResults`;
* `src/lib/image-optimizer.js` (`ImageOptimizer.optimize`, `generateWebP`).

Modelling conventions:

* Filesystem paths are lists of segments (`FPath`); `path.join(a, b)` on a
  root and a glob-relative path is list append, `path.dirname` is
  `List.dropLast`.
* The mutable output filesystem is a `FS` value: a set of directories plus
  a write log of `(path, content)` pairs, newest first; `FS.lookup` returns
  the most recent write, which gives `fs.writeFileSync` its unconditional
  overwrite semantics.  File contents are `String`s and a file's size is
  its length.
* The input tree that `glob` enumerates and the compressors read is a
  `FTree` value, separate from the output `FS` (the spec's idempotence
  property assumes the input tree is not modified between runs).
* External compression libraries are opaque parameters
  `FPath → Except Err String`, matching the spec's black-box
  `compress(content, config) -> content'` contract; a Lean function is
  deterministic, which is exactly the determinism assumption the spec makes.
* JavaScript numbers holding byte counts are embedded as `Nat`/`Int`
  (the totals are exact integers); the one place the code performs float
  division for display, the result is embedded as `Option ℚ` where `none`
  stands for the non-finite IEEE results (`NaN`/`±Infinity`) that arise
  when the denominator is `0`, and `toFixed(2)`-style rounding is embedded
  as exact rational rounding to two decimal places.
* I/O failures of `fs.statSync` / `imagemin` / `fs.copyFileSync` are
  injected through `Except`-valued parameters or an error oracle;
  `fs.writeFileSync` and `fs.mkdirSync` themselves are modelled as always
  succeeding (their failure modes are not the subject of any claim).
-/

/-! ## Paths and the output filesystem -/

/-- A filesystem path as a list of segments.  `path.join(root, rel)` for a
root directory and a glob-produced relative path is `root ++ rel`. -/
abbrev FPath := List String

/-- File contents; a file's size in bytes is the content's length. -/
abbrev Content := String

/-- Error values carried by thrown JavaScript exceptions. -/
abbrev Err := String

/-- All nonempty prefixes of a path, innermost last.  `mkdirSync(p,
{recursive: true})` creates exactly the directories in `ancestors p`. -/
def ancestors (p : FPath) : List FPath :=
  (List.range p.length).map fun i => p.take (i + 1)

/-- The mutable output filesystem: the set of directories that exist and a
log of file writes, newest first. -/
structure FS where
  dirs : List FPath
  files : List (FPath × Content)

/-- The content currently stored at `p`: the newest write to `p`.  A later
`writeFile` to the same path shadows earlier ones, which models
`fs.writeFileSync`'s unconditional overwrite. -/
def FS.lookup (fs : FS) (p : FPath) : Option Content :=
  (fs.files.find? fun e => e.1 == p).map (·.2)

/-- The term `fs.writeFileSync(p, c)`. -/
def FS.writeFile (fs : FS) (p : FPath) (c : Content) : FS :=
  { fs with files := (p, c) :: fs.files }

/-- Whether some file currently exists at `p`. -/
def FS.hasFile (fs : FS) (p : FPath) : Bool :=
  (fs.lookup p).isSome

/-- Whether the directory `p` exists. -/
def FS.hasDir (fs : FS) (p : FPath) : Bool :=
  fs.dirs.contains p

/-- The term `fs.existsSync(p)`: true if either a directory or a file is at `p`. -/
def FS.existsSync (fs : FS) (p : FPath) : Bool :=
  fs.hasDir p || fs.hasFile p

/-- The term `fs.mkdirSync(p, {recursive: true})`: creates `p` and every missing
ancestor directory. -/
def FS.mkdirRec (fs : FS) (p : FPath) : FS :=
  { fs with dirs := ancestors p ++ fs.dirs }

/-- The `if (!fs.existsSync(dir)) fs.mkdirSync(dir, {recursive: true})`
idiom that precedes every write in `StaticPageOptimizer`. -/
def FS.ensureDir (fs : FS) (p : FPath) : FS :=
  if fs.existsSync p then fs else fs.mkdirRec p

/-! ## `getFileSize` and `updateStats` -/

/-- The term `getFileSize` from `lib/utils.js`, parametrised by the outcome of
`fs.statSync(filePath)`: the try/catch returns the stat's size on success
and `0` on any thrown error (missing file, permission error, ...). -/
def getFileSize (stat : Except Err Nat) : Nat :=
  match stat with
  | .ok n => n
  | .error _ => 0

/-- The term `getFileSize` applied through an abstract `statSync` function, so a
whole filesystem's worth of stat outcomes can be quantified over. -/
def getFileSizeVia (statSync : FPath → Except Err Nat) (p : FPath) : Nat :=
  getFileSize (statSync p)

/-- The orchestrator's running totals (`this.stats` in
`StaticPageOptimizer`). -/
structure RunStats where
  originalSize : Nat
  optimizedSize : Nat
  filesProcessed : Nat
  timeElapsed : Nat
deriving DecidableEq, Repr

/-- The term `StaticPageOptimizer.updateStats`: adds both sizes to the running
totals and increments `filesProcessed`. -/
def updateStats (st : RunStats) (originalSize optimizedSize : Nat) : RunStats :=
  { st with
    originalSize := st.originalSize + originalSize
    optimizedSize := st.optimizedSize + optimizedSize
    filesProcessed := st.filesProcessed + 1 }

/-! ## Savings computation and the end-of-run report -/

/-- The term `x.toFixed(2)` followed by `parseFloat`, embedded as exact rounding of
a rational to two decimal places. -/
def round2 (q : ℚ) : ℚ := (round (q * 100) : ℤ) / 100

/-- The term `x.toFixed(4)` embedded as exact rounding to four decimal places. -/
def round4 (q : ℚ) : ℚ := (round (q * 10000) : ℤ) / 10000

/-- Result record of `calculateCompressionRatio` in `lib/utils.js`. -/
structure CompressionOutcome where
  originalSize : Int
  optimizedSize : Int
  savedBytes : Int
  savedPercentage : ℚ
  compressionRate : ℚ
deriving DecidableEq, Repr

/-- The term `calculateCompressionRatio(originalSize, optimizedSize)` from
`lib/utils.js`: `savedBytes = originalSize - optimizedSize`;
`savedPercentage` is `((savedBytes/originalSize)*100).toFixed(2)` guarded
by `originalSize > 0`, else `0`; the ratio field is
`(optimizedSize/originalSize).toFixed(4)` guarded likewise, else `1`. -/
def calculateCompressionRatio (originalSize optimizedSize : Int) : CompressionOutcome :=
  let savedBytes := originalSize - optimizedSize
  { originalSize := originalSize
    optimizedSize := optimizedSize
    savedBytes := savedBytes
    savedPercentage :=
      if originalSize > 0 then round2 ((savedBytes : ℚ) / (originalSize : ℚ) * 100) else 0
    compressionRate :=
      if originalSize > 0 then round4 ((optimizedSize : ℚ) / (originalSize : ℚ)) else 1 }

/-- The `savedBytes` figure printed by `StaticPageOptimizer.showResults`:
`this.stats.originalSize - this.stats.optimizedSize`. -/
def showResultsSavedBytes (st : RunStats) : Int :=
  (st.originalSize : Int) - (st.optimizedSize : Int)

/-- The percentage printed by `StaticPageOptimizer.showResults`:
`((savedBytes / this.stats.originalSize) * 100).toFixed(2)` with no guard
on `originalSize`.  When `originalSize = 0` the IEEE division produces a
non-finite value (`0/0 = NaN`), embedded here as `none`; otherwise the
finite result rounded to two decimals, as `some`. -/
def showResultsPercentage (st : RunStats) : Option ℚ :=
  if st.originalSize = 0 then none
  else some (round2 ((showResultsSavedBytes st : ℚ) / (st.originalSize : ℚ) * 100))

/-! ## JavaScript option objects, `deepMerge`, `validateOptions`, and the
`StaticPageOptimizer` constructor -/

/-- A JavaScript value as far as the configuration code manipulates one. -/
inductive JSValue where
  | undefined : JSValue
  | null : JSValue
  | bool : Bool → JSValue
  | num : Int → JSValue
  | str : String → JSValue
  | arr : List JSValue → JSValue
  | obj : List (String × JSValue) → JSValue

/-- The `typeof source[key] === 'object' && source[key] !== null &&
!Array.isArray(source[key])` test of `deepMerge`: true exactly for plain
objects. -/
def JSValue.isMergeObj : JSValue → Bool
  | .obj _ => true
  | _ => false

/-- JavaScript truthiness (no NaN in the model; numbers are integers). -/
def JSValue.truthy : JSValue → Bool
  | .undefined => false
  | .null => false
  | .bool b => b
  | .num n => n != 0
  | .str s => s != ""
  | .arr _ => true
  | .obj _ => true

/-- The term `a || b`. -/
def jsOr (a b : JSValue) : JSValue := if a.truthy then a else b

/-- Property read `fields[k]` on an object's field list, first occurrence;
`undefined` when absent. -/
def getField (fields : List (String × JSValue)) (k : String) : JSValue :=
  match fields.find? (fun e => e.1 == k) with
  | some e => e.2
  | none => .undefined

/-- Property read `v[k]`, `undefined` on non-objects (the configuration
code never reads properties off primitives). -/
def JSValue.getF (v : JSValue) (k : String) : Option JSValue :=
  match v with
  | .obj fields => (fields.find? (fun e => e.1 == k)).map (·.2)
  | _ => none

/-- Property assignment `result[k] = v` on an object's field list: an
existing key keeps its position and gets the new value, a new key is
appended (JavaScript insertion-order semantics for string keys). -/
def setField : List (String × JSValue) → String → JSValue → List (String × JSValue)
  | [], k, v => [(k, v)]
  | (k', v') :: rest, k, v =>
      if k' == k then (k', v) :: rest else (k', v') :: setField rest k v

/-- The own enumerable entries produced by spreading a value into an object
literal (`{...target}`): an object's fields; a string's or array's indexed
elements; nothing for other primitives. -/
def spreadEntries : JSValue → List (String × JSValue)
  | .obj fields => fields
  | .str s => s.data.enum.map fun e => (toString e.1, JSValue.str (String.mk [e.2]))
  | .arr es => es.enum.map fun e => (toString e.1, e.2)
  | _ => []

/-- Assign a batch of entries onto a field list in order (the tail
`...options` of an object literal, and the `for..in` loop over a source
whose property values can never be plain objects). -/
def assignEntries (res : List (String × JSValue)) : List (String × JSValue) → List (String × JSValue)
  | [] => res
  | (k, v) :: rest => assignEntries (setField res k v) rest

mutual
/-- The term `deepMerge(target, source)` from `lib/utils.js`:

```js
const result = { ...target };
for (const key in source) if (source.hasOwnProperty(key)) {
  if (typeof source[key] === 'object' && source[key] !== null
      && !Array.isArray(source[key]))
    result[key] = deepMerge(result[key] || {}, source[key]);
  else result[key] = source[key];
}
return result;
```

The `for..in` enumeration is split by the source's constructor: an object
contributes its fields, an array its elements under numeric string keys, a
string its characters (whose values are one-character strings, never plain
objects, so that case never recurses), and other primitives contribute no
keys. -/
def deepMerge (target : JSValue) : JSValue → JSValue
  | .obj fs => .obj (dmFields (spreadEntries target) fs)
  | .arr es => .obj (dmElems (spreadEntries target) 0 es)
  | .str s => .obj (assignEntries (spreadEntries target) (spreadEntries (.str s)))
  | _ => .obj (spreadEntries target)

/-- The `for..in` body of `deepMerge` over an object source's fields. -/
def dmFields (res : List (String × JSValue)) : List (String × JSValue) → List (String × JSValue)
  | [] => res
  | (k, v) :: rest =>
      dmFields
        (setField res k
          (if v.isMergeObj then deepMerge (jsOr (getField res k) (.obj [])) v else v))
        rest

/-- The `for..in` body of `deepMerge` over an array source's elements. -/
def dmElems (res : List (String × JSValue)) (i : Nat) : List JSValue → List (String × JSValue)
  | [] => res
  | v :: rest =>
      dmElems
        (setField res (toString i)
          (if v.isMergeObj then deepMerge (jsOr (getField res (toString i)) (.obj [])) v else v))
        (i + 1) rest
end

/-- The documented defaults of `validateOptions` in `lib/utils.js`. -/
def defaultOptions : JSValue :=
  .obj
    [ ("inputDir", .str "./"), ("outputDir", .str "./dist"),
      ("html", .bool true), ("css", .bool true), ("js", .bool true),
      ("images", .bool true), ("backup", .bool false), ("verbose", .bool false) ]

/-- The term `validateOptions(options)` from `lib/utils.js`:
`deepMerge(defaults, options)`. -/
def validateOptions (options : JSValue) : JSValue :=
  deepMerge defaultOptions options

/-- The term `v !== false` for the strict comparison used on the category and backup
toggles in the `StaticPageOptimizer` constructor: false only for the
literal `false`. -/
def strictNeqFalse : JSValue → Bool
  | .bool false => false
  | _ => true

/-- Property read off a possibly-absent key as the constructor performs it
(`options.inputDir` etc.), yielding `undefined` when missing. -/
def getFD (v : JSValue) (k : String) : JSValue :=
  match v.getF k with
  | some w => w
  | none => .undefined

/-- The term `this.options` as built by the `StaticPageOptimizer` constructor
(`src/unnamed/part_004` lines 14-24): an object literal of defaulted
fields followed by the spread `...options`, which re-assigns every key the
caller supplied. -/
def constructorOptions (options : JSValue) : JSValue :=
  .obj
    (assignEntries
      [ ("inputDir", jsOr (getFD options "inputDir") (.str "./")),
        ("outputDir", jsOr (getFD options "outputDir") (.str "./dist")),
        ("html", .bool (strictNeqFalse (getFD options "html"))),
        ("css", .bool (strictNeqFalse (getFD options "css"))),
        ("js", .bool (strictNeqFalse (getFD options "js"))),
        ("images", .bool (strictNeqFalse (getFD options "images"))),
        ("backup", .bool (strictNeqFalse (getFD options "backup"))),
        ("verbose", jsOr (getFD options "verbose") (.bool false)) ]
      (spreadEntries options))

/-- The test `if (this.options.backup)` at line 45 of `optimize()`, which
decides whether `createBackup()` runs. -/
def constructorBackupFlag (options : JSValue) : Bool :=
  (getFD (constructorOptions options) "backup").truthy

/-! ## The input tree and glob enumeration -/

mutual
/-- A directory of the input tree, as `fs.readdirSync(dir,
{withFileTypes: true})` reports it: an ordered list of entries. -/
inductive FTree where
  | mk : List Dirent → FTree

/-- One directory entry: a file with its content, or a subdirectory. -/
inductive Dirent where
  | file : String → Content → Dirent
  | dir : String → FTree → Dirent
end

mutual
/-- All files of a tree with their paths relative to the tree's root, in
depth-first entry order (the stable enumeration order of the model). -/
def FTree.filesList : FTree → List (FPath × Content)
  | .mk es => Dirent.filesOf es

/-- The term `FTree.filesList` over an entry list. -/
def Dirent.filesOf : List Dirent → List (FPath × Content)
  | [] => []
  | .file n c :: rest => ([n], c) :: Dirent.filesOf rest
  | .dir n t :: rest => (t.filesList.map fun e => (n :: e.1, e.2)) ++ Dirent.filesOf rest
end

mutual
/-- Look up the content of the file at relative path `p`. -/
def FTree.lookupFile : FTree → FPath → Option Content
  | .mk es, p => Dirent.lookupIn es p

/-- The term `FTree.lookupFile` over an entry list. -/
def Dirent.lookupIn : List Dirent → FPath → Option Content
  | [], _ => none
  | .file n c :: rest, p => if p == [n] then some c else Dirent.lookupIn rest p
  | .dir n t :: rest, p =>
      match p with
      | q :: qs =>
          if q == n && !qs.isEmpty then
            match t.lookupFile qs with
            | some c => some c
            | none => Dirent.lookupIn rest p
          else Dirent.lookupIn rest p
      | [] => Dirent.lookupIn rest p
end

/-- The term `getFileSize(path.join(inputDir, file))` as the per-category loops use
it on input files: the file's size, or `0` when the stat fails because no
such file exists. -/
def getFileSizeTree (t : FTree) (p : FPath) : Nat :=
  match t.lookupFile p with
  | some c => c.length
  | none => 0

/-- The term `getFileSize(outputPath)` on the output filesystem. -/
def getFileSizeFS (fs : FS) (p : FPath) : Nat :=
  match fs.lookup p with
  | some c => c.length
  | none => 0

/-- Whether the basename matches a category glob `**/*.<ext>`: it ends in
one of the category's extensions. -/
def extMatches (exts : List String) (p : FPath) : Bool :=
  match p.getLast? with
  | some name => exts.any fun e => e.data.isSuffixOf name.data
  | none => false

/-- The term `await glob(pattern, { cwd: inputDir })`: the relative paths of all
files under the tree whose basename matches one of the extensions, in the
tree's stable enumeration order. -/
def globModel (t : FTree) (exts : List String) : List FPath :=
  (t.filesList.map (·.1)).filter (extMatches exts)

/-- The glob extension sets of the four category loops. -/
def htmlExts : List String := [".html"]

/-- The term `**/*.css`. -/
def cssExts : List String := [".css"]

/-- The term `**/*.js`. -/
def jsExts : List String := [".js"]

/-- The term `**/*.{jpg,jpeg,png,gif,svg,webp}`. -/
def imageExts : List String := [".jpg", ".jpeg", ".png", ".gif", ".svg", ".webp"]

/-! ## The per-category loops -/

/-- Orchestrator state threaded through one run: the output filesystem and
the running totals. -/
structure RunState where
  fs : FS
  stats : RunStats

/-- The loop body of `processHTML` / `processCSS` / `processJS`
(`src/unnamed/part_004` lines 100-121), identical across the three text
categories up to the adapter called:

for each `file` in the glob result, `outputPath = join(outputDir, file)`;
ensure `dirname(outputPath)` exists; read the input size; call the
category's compressor; on success write the result to `outputPath`, stat
it back and record both sizes; a thrown compressor error stops the loop
and propagates (the surrounding try/catch rethrows). -/
def processFiles (t : FTree) (outRoot : FPath) (adapter : FPath → Except Err Content) :
    List FPath → RunState → RunState × Option Err
  | [], s => (s, none)
  | f :: rest, s =>
      let outputPath := outRoot ++ f
      let fs1 := s.fs.ensureDir outputPath.dropLast
      let originalSize := getFileSizeTree t f
      match adapter f with
      | .error e => ({ s with fs := fs1 }, some e)
      | .ok content =>
          let fs2 := fs1.writeFile outputPath content
          let optimizedSize := getFileSizeFS fs2 outputPath
          processFiles t outRoot adapter rest
            { fs := fs2, stats := updateStats s.stats originalSize optimizedSize }

/-! ## The image optimizer (`src/lib/image-optimizer.js`) -/

/-- Substring test, modelling JavaScript's `String.prototype.includes`. -/
def strContains (s sub : String) : Bool :=
  (List.range (s.data.length + 1)).any fun i => sub.data.isPrefixOf (s.data.drop i)

/-- The term `path.extname(name).toLowerCase()` on a basename: the suffix starting
at the last dot, lowercased; empty when there is no dot or the only role
of the dot is to start a hidden file name (dot at index 0). -/
def extnameLower (name : String) : String :=
  let rev := name.data.reverse
  let after := rev.takeWhile fun c => !(c == '.')
  if after.length == rev.length then ""
  else if after.length + 1 == rev.length then ""
  else String.mk (('.' :: after.reverse).map Char.toLower)

/-- The file extension the image optimizer dispatches on:
`path.extname(inputPath).toLowerCase()` (only the basename carries the
extension). -/
def fileExt (p : FPath) : String :=
  extnameLower (p.getLastD "")

/-- The term `outputPath.replace(/\.[^.]+$/, '.webp')` on a basename: everything
from the last dot on is replaced by `.webp`; a dotless name is returned
unchanged (the regex does not match). -/
def replaceExtWebp (name : String) : String :=
  let rev := name.data.reverse
  let after := rev.takeWhile fun c => !(c == '.')
  if after.length == rev.length then name
  else String.mk ((rev.drop (after.length + 1)).reverse) ++ ".webp"

/-- The derived WebP output path of `generateWebP`.  The source applies the
regex to the whole joined path string; because every image path the glob
produces has a dotted basename, the last dot of the joined string lies in
the basename and the replacement stays within it, which is what this
segment-level model computes. -/
def webpSibling (p : FPath) : FPath :=
  if p.isEmpty then p else p.dropLast ++ [replaceExtWebp (p.getLastD "")]

/-- The extensions the `switch` of `ImageOptimizer.optimize` accepts. -/
def supportedImageExts : List String :=
  [".jpg", ".jpeg", ".png", ".svg", ".gif", ".webp"]

/-- The `switch (fileExt)` of `ImageOptimizer.optimize`: dispatch into the
per-format external compressor on a supported extension, throw
`不支持的图片格式` otherwise.  The per-format imagemin pipelines are one
opaque adapter. -/
def imageDispatch (imgAdapter : FPath → Except Err Content) (f : FPath) :
    Except Err Content :=
  if supportedImageExts.contains (fileExt f) then imgAdapter f
  else .error ("不支持的图片格式: " ++ fileExt f)

/-- The term `ImageOptimizer.optimize(inputPath, outputPath, options)`
(`src/lib/image-optimizer.js` lines 92-137), with `generateWebP`
(lines 230-245) inlined: ensure the output directory, produce the
optimized buffer, write it to `outputPath`; when WebP generation is on and
the input extension does not contain `webp`, additionally try the webp
conversion, writing its result beside the primary output — its own
try/catch turns any failure into a `console.warn` (collected in the
returned warning list) and never rethrows.  A failure of the primary
conversion is rethrown wrapped in `图片优化失败`. -/
def imageOptimize (imgAdapter webpAdapter : FPath → Except Err Content)
    (generateWebP : Bool) (f outputPath : FPath) (fs : FS) :
    (FS × List String) × Option Err :=
  let fs1 := fs.ensureDir outputPath.dropLast
  match imageDispatch imgAdapter f with
  | .error e => ((fs1, []), some ("图片优化失败: " ++ e))
  | .ok buf =>
      let fs2 := fs1.writeFile outputPath buf
      if generateWebP && !(strContains (fileExt f) "webp") then
        match webpAdapter f with
        | .ok w => ((fs2.writeFile (webpSibling outputPath) w, []), none)
        | .error e => ((fs2, ["WebP转换失败: " ++ e]), none)
      else ((fs2, []), none)

/-- The loop body of `processImages` (`src/unnamed/part_004` lines
203-221): like the text categories, but the write is performed inside
`optimizeImages` and the recorded optimized size is statted back from the
written output. -/
def processImagesFiles (t : FTree) (outRoot : FPath)
    (imgAdapter webpAdapter : FPath → Except Err Content) (generateWebP : Bool) :
    List FPath → RunState → RunState × Option Err
  | [], s => (s, none)
  | f :: rest, s =>
      let outputPath := outRoot ++ f
      let fs1 := s.fs.ensureDir outputPath.dropLast
      let originalSize := getFileSizeTree t f
      match imageOptimize imgAdapter webpAdapter generateWebP f outputPath fs1 with
      | ((fs2, _), some e) => ({ s with fs := fs2 }, some e)
      | ((fs2, _), none) =>
          let optimizedSize := getFileSizeFS fs2 outputPath
          processImagesFiles t outRoot imgAdapter webpAdapter generateWebP rest
            { fs := fs2, stats := updateStats s.stats originalSize optimizedSize }

/-! ## Backup (`createBackup` / `copyDirectory`) -/

mutual
/-- The term `StaticPageOptimizer.copyDirectory(src, dest)` (`src/unnamed/part_004`
lines 230-244) over the input tree, with an error oracle `ioFail` giving
the destination path at which `fs.copyFileSync` throws (if any): entries
in order; a directory entry is `mkdirSync`-ed recursively and recursed
into; a file entry is copied byte-identically.  The first thrown error
stops the walk and propagates, leaving the copies made so far in place. -/
def copyDirectory (ioFail : FPath → Option Err) : FTree → FPath → FS → FS × Option Err
  | .mk es, dest, fs => copyEntries ioFail es dest fs

/-- The term `copyDirectory` over an entry list. -/
def copyEntries (ioFail : FPath → Option Err) :
    List Dirent → FPath → FS → FS × Option Err
  | [], _, fs => (fs, none)
  | .file n c :: rest, dest, fs =>
      match ioFail (dest ++ [n]) with
      | some e => (fs, some e)
      | none => copyEntries ioFail rest dest (fs.writeFile (dest ++ [n]) c)
  | .dir n t :: rest, dest, fs =>
      let fs1 := fs.mkdirRec (dest ++ [n])
      match copyDirectory ioFail t (dest ++ [n]) fs1 with
      | (fs2, some e) => (fs2, some e)
      | (fs2, none) => copyEntries ioFail rest dest fs2
end

/-- The term `StaticPageOptimizer.createBackup` (`src/unnamed/part_004` lines
78-93): ensure `join(outputDir, 'backup')` exists, then copy the whole
input tree into it; any error propagates (the spinner's catch rethrows). -/
def createBackup (ioFail : FPath → Option Err) (t : FTree) (outRoot : FPath)
    (fs : FS) : FS × Option Err :=
  let backupDir := outRoot ++ ["backup"]
  copyDirectory ioFail t backupDir (fs.ensureDir backupDir)

/-! ## The orchestrator (`StaticPageOptimizer.optimize`) -/

/-- The effective boolean configuration of one run, together with the four
opaque compression adapters. -/
structure RunConfig where
  backup : Bool
  html : Bool
  css : Bool
  js : Bool
  images : Bool
  generateWebP : Bool
  htmlAdapter : FPath → Except Err Content
  cssAdapter : FPath → Except Err Content
  jsAdapter : FPath → Except Err Content
  imgAdapter : FPath → Except Err Content
  webpAdapter : FPath → Except Err Content

/-- Sequence two fallible pipeline phases: the second runs only when the
first did not throw (the straight-line `await` sequence inside
`optimize()`'s try block). -/
def seqE (f g : RunState → RunState × Option Err) (s : RunState) :
    RunState × Option Err :=
  match f s with
  | (s', none) => g s'
  | (s', some e) => (s', some e)

/-- The backup phase of `optimize()` (lines 45-47): runs `createBackup`
when the option is on, otherwise does nothing. -/
def backupPhase (cfg : RunConfig) (ioFail : FPath → Option Err) (t : FTree)
    (outRoot : FPath) (s : RunState) : RunState × Option Err :=
  if cfg.backup then
    match createBackup ioFail t outRoot s.fs with
    | (fs', e) => ({ s with fs := fs' }, e)
  else (s, none)

/-- One optional category phase of `optimize()`. -/
def catPhase (enabled : Bool) (run : RunState → RunState × Option Err)
    (s : RunState) : RunState × Option Err :=
  if enabled then run s else (s, none)

/-- The four category phases of `optimize()` in their fixed order: HTML,
CSS, JavaScript, images (lines 50-67). -/
def categoriesPhase (cfg : RunConfig) (t : FTree) (outRoot : FPath) :
    RunState → RunState × Option Err :=
  seqE (catPhase cfg.html (processFiles t outRoot cfg.htmlAdapter (globModel t htmlExts)))
    (seqE (catPhase cfg.css (processFiles t outRoot cfg.cssAdapter (globModel t cssExts)))
      (seqE (catPhase cfg.js (processFiles t outRoot cfg.jsAdapter (globModel t jsExts)))
        (catPhase cfg.images
          (processImagesFiles t outRoot cfg.imgAdapter cfg.webpAdapter cfg.generateWebP
            (globModel t imageExts)))))

/-- The term `StaticPageOptimizer.optimize()` (`src/unnamed/part_004` lines 34-76):
ensure the output directory exists, optionally back up, then run the four
category phases in order; the first thrown error aborts everything after
it (the try/catch rethrows). -/
def optimize (cfg : RunConfig) (ioFail : FPath → Option Err) (t : FTree)
    (outRoot : FPath) (s0 : RunState) : RunState × Option Err :=
  let s1 : RunState := { s0 with fs := s0.fs.ensureDir outRoot }
  seqE (backupPhase cfg ioFail t outRoot) (categoriesPhase cfg t outRoot) s1

/-! ## Stats lemmas and claims C9, C10 -/

/-- Running a category loop never decreases any accumulated total. -/
theorem processFiles_stats_mono (t : FTree) (outRoot : FPath)
    (a : FPath → Except Err Content) :
    ∀ (files : List FPath) (s : RunState),
      s.stats.originalSize ≤ ((processFiles t outRoot a files s).1).stats.originalSize ∧
      s.stats.optimizedSize ≤ ((processFiles t outRoot a files s).1).stats.optimizedSize ∧
      s.stats.filesProcessed ≤ ((processFiles t outRoot a files s).1).stats.filesProcessed := by
  intro files
  induction files with
  | nil => intro s; exact ⟨le_rfl, le_rfl, le_rfl⟩
  | cons f rest ih =>
      intro s
      simp only [processFiles]
      cases h : a f with
      | error e => exact ⟨le_rfl, le_rfl, le_rfl⟩
      | ok c =>
          refine ⟨le_trans ?_ (ih _).1, le_trans ?_ (ih _).2.1, le_trans ?_ (ih _).2.2⟩
          all_goals simp [updateStats]

/-- C9: `updateStats(originalSize, optimizedSize)` adds both sizes to the
running totals and increments `filesProcessed` by exactly one, leaves the
elapsed-time field alone, and therefore every `RunStats` field is
monotonically non-decreasing, both across a single recorded result and
across a whole category loop of a run. -/
theorem claim_c9_updateStats_monotone (st : RunStats) (o p : Nat) :
    (updateStats st o p).originalSize = st.originalSize + o ∧
    (updateStats st o p).optimizedSize = st.optimizedSize + p ∧
    (updateStats st o p).filesProcessed = st.filesProcessed + 1 ∧
    (updateStats st o p).timeElapsed = st.timeElapsed ∧
    st.originalSize ≤ (updateStats st o p).originalSize ∧
    st.optimizedSize ≤ (updateStats st o p).optimizedSize ∧
    st.filesProcessed ≤ (updateStats st o p).filesProcessed ∧
    st.timeElapsed ≤ (updateStats st o p).timeElapsed ∧
    (∀ (t : FTree) (outRoot : FPath) (a : FPath → Except Err Content)
        (files : List FPath) (s : RunState),
      s.stats.originalSize ≤ ((processFiles t outRoot a files s).1).stats.originalSize ∧
      s.stats.optimizedSize ≤ ((processFiles t outRoot a files s).1).stats.optimizedSize ∧
      s.stats.filesProcessed ≤ ((processFiles t outRoot a files s).1).stats.filesProcessed) := by
  refine ⟨rfl, rfl, rfl, rfl, Nat.le_add_right _ _, Nat.le_add_right _ _,
    Nat.le_add_right _ _, le_rfl, ?_⟩
  intro t outRoot a files s
  exact processFiles_stats_mono t outRoot a files s

/-- C10: `getFileSize` is total — whenever `fs.statSync` throws (missing
file, permission error, any filesystem error) it returns `0` instead of
raising; a file whose size cannot be read therefore contributes `0` bytes
to the accumulated totals, and the missing-file case of the input-tree and
output-filesystem size reads evaluates to `0` as well. -/
theorem claim_c10_getFileSize_total (statSync : FPath → Except Err Nat)
    (p : FPath) (e : Err) (h : statSync p = .error e) :
    getFileSizeVia statSync p = 0 ∧
    (∀ (st : RunStats) (opt : Nat),
      (updateStats st (getFileSizeVia statSync p) opt).originalSize = st.originalSize ∧
      (updateStats st opt (getFileSizeVia statSync p)).optimizedSize = st.optimizedSize) ∧
    (∀ (t : FTree) (q : FPath), t.lookupFile q = none → getFileSizeTree t q = 0) ∧
    (∀ (fs : FS) (q : FPath), fs.lookup q = none → getFileSizeFS fs q = 0) := by
  have hz : getFileSizeVia statSync p = 0 := by
    simp [getFileSizeVia, getFileSize, h]
  refine ⟨hz, ?_, ?_, ?_⟩
  · intro st opt
    constructor <;> simp [updateStats, hz]
  · intro t q hq; simp [getFileSizeTree, hq]
  · intro fs q hq; simp [getFileSizeFS, hq]

/-- Witness for C10 at a concrete failing stat. -/
theorem claim_c10_getFileSize_total_witness :
    getFileSizeVia (fun _ => .error "ENOENT") ["missing.html"] = 0 ∧
    (updateStats ⟨10, 20, 3, 0⟩ (getFileSizeVia (fun _ => .error "ENOENT") ["missing.html"]) 7).originalSize = 10 := by
  have h := claim_c10_getFileSize_total (fun _ => .error "ENOENT") ["missing.html"] "ENOENT" rfl
  exact ⟨h.1, (h.2.1 ⟨10, 20, 3, 0⟩ 7).1⟩

/-! ## Claim C3: the savings computation and the end-of-run report -/

/-- C3 (counterexample): the claim asserts that the percentage figure of
the end-of-run report equals `0` when `originalSize = 0`; but
`showResults` divides without a guard, so on the zero-files run the
printed percentage is the non-finite `0/0` (NaN), not `0`. -/
theorem claim_c3_counterexample :
    showResultsPercentage ⟨0, 0, 0, 0⟩ ≠ some 0 := by
  simp [showResultsPercentage]

/-- C3 (amended): `calculateCompressionRatio` satisfies
`savedBytes = originalSize - optimizedSize`, returns percentage `0` when
`originalSize = 0` and the two-decimal rounding of
`100 * savedBytes / originalSize` when `originalSize > 0`, and the running
totals stay exact integers; the end-of-run report prints the same
`savedBytes` and the same rounded percentage when `originalSize > 0`, but
when `originalSize = 0` it prints the unguarded non-finite `0/0` (NaN)
rather than `0`. -/
theorem claim_c3_savings_formula (o p : Int) (st : RunStats) :
    (calculateCompressionRatio o p).savedBytes = o - p ∧
    (o = 0 → (calculateCompressionRatio o p).savedPercentage = 0) ∧
    (0 < o → (calculateCompressionRatio o p).savedPercentage
        = round2 (((o : ℚ) - (p : ℚ)) / (o : ℚ) * 100)) ∧
    showResultsSavedBytes st = (st.originalSize : Int) - (st.optimizedSize : Int) ∧
    (0 < st.originalSize → showResultsPercentage st
        = some (round2 ((showResultsSavedBytes st : ℚ) / (st.originalSize : ℚ) * 100))) ∧
    (st.originalSize = 0 → showResultsPercentage st = none) ∧
    (∀ (stt : RunStats) (o' p' : Nat),
      (updateStats stt o' p').originalSize = stt.originalSize + o' ∧
      (updateStats stt o' p').optimizedSize = stt.optimizedSize + p') := by
  refine ⟨rfl, ?_, ?_, rfl, ?_, ?_, ?_⟩
  · intro h; simp [calculateCompressionRatio, h]
  · intro h; simp [calculateCompressionRatio, h]
  · intro h
    have : st.originalSize ≠ 0 := Nat.pos_iff_ne_zero.mp h
    simp [showResultsPercentage, this]
  · intro h; simp [showResultsPercentage, h]
  · intro stt o' p'; exact ⟨rfl, rfl⟩

/-- Witness for C3 at the spec's concrete scenario (800 original bytes,
450 optimized): saved 350 bytes, 43.75 percent; and at the empty run. -/
theorem claim_c3_savings_formula_witness :
    (calculateCompressionRatio 800 450).savedBytes = 350 ∧
    (calculateCompressionRatio 0 0).savedPercentage = 0 ∧
    (calculateCompressionRatio 800 450).savedPercentage = round2 (((800 : ℚ) - 450) / 800 * 100) ∧
    showResultsPercentage ⟨0, 0, 0, 0⟩ = none := by
  have h800 := claim_c3_savings_formula 800 450 (⟨0, 0, 0, 0⟩ : RunStats)
  have h0 := claim_c3_savings_formula 0 0 (⟨0, 0, 0, 0⟩ : RunStats)
  refine ⟨h800.1, h0.2.1 rfl, h800.2.2.1 (by norm_num), h0.2.2.2.2.2.1 rfl⟩

/-! ## Claim C5: the backup default -/

/-- C5: the claim (and the repository's own documentation — the
`validateOptions` defaults, the opt-in `--backup` CLI flag, the README's
`"backup": false` sample config) says backup is disabled when the option
is absent.  The `StaticPageOptimizer` constructor instead computes
`backup: options.backup !== false`, which evaluates to `true` for an
options object without a `backup` key, so `if (this.options.backup)`
takes the backup branch and `createBackup()` runs — while
`validateOptions({})` on the very same absent key yields `false`. -/
theorem claim_c5_constructor_backup_defaults_on :
    constructorBackupFlag (.obj []) = true ∧
    getFD (constructorOptions (.obj [])) "backup" = .bool true ∧
    (validateOptions (.obj [])).getF "backup" = some (.bool false) := by
  exact ⟨rfl, rfl, rfl⟩

/-! ## Field-lookup lemmas for `deepMerge` (claim C4) -/

/-- Whether a field list carries the key `k`. -/
def hasKey (fields : List (String × JSValue)) (k : String) : Bool :=
  fields.any fun e => e.1 == k


/-- Unfolding `getField` over a cons cell. -/
theorem getField_cons (k' : String) (v' : JSValue) (tl : List (String × JSValue))
    (k : String) :
    getField ((k', v') :: tl) k = if k' = k then v' else getField tl k := by
  by_cases h : k' = k
  · subst h
    simp [getField, List.find?_cons_of_pos]
  · have hb : ¬((((k', v') : String × JSValue).1 == k) = true) := by simp [h]
    simp [getField, List.find?_cons_of_neg _ hb, h]

/-- Unfolding `hasKey` over a cons cell. -/
theorem hasKey_cons (k' : String) (v' : JSValue) (tl : List (String × JSValue))
    (k : String) :
    hasKey ((k', v') :: tl) k = ((k' == k) || hasKey tl k) := by
  simp [hasKey, List.any_cons]

/-- Unfolding `setField` over a cons cell. -/
theorem setField_cons (k' : String) (v' : JSValue) (tl : List (String × JSValue))
    (k : String) (v : JSValue) :
    setField ((k', v') :: tl) k v =
      if k' = k then (k', v) :: tl else (k', v') :: setField tl k v := by
  by_cases h : k' = k <;> simp [setField, h]

/-- Reading a key right after writing it gives the written value; other
keys are unaffected. -/
theorem getField_setField (res : List (String × JSValue)) (k k2 : String) (v : JSValue) :
    getField (setField res k v) k2 = if k2 = k then v else getField res k2 := by
  induction res with
  | nil =>
      by_cases h : k2 = k
      · subst h; simp [setField, getField_cons]
      · have h2 : k ≠ k2 := fun hh => h hh.symm
        simp [setField, getField_cons, h, h2, getField]
  | cons hd tl ih =>
      obtain ⟨k', v'⟩ := hd
      rw [setField_cons]
      by_cases hk : k' = k
      · subst hk
        rw [if_pos rfl, getField_cons, getField_cons]
        by_cases h2 : k2 = k'
        · subst h2; simp
        · have h2s : k' ≠ k2 := fun hh => h2 hh.symm
          simp [h2, h2s]
      · rw [if_neg hk, getField_cons, getField_cons, ih]
        by_cases h2 : k2 = k
        · subst h2
          have : k' ≠ k2 := hk
          simp [this, hk]
        · simp [h2]

/-- The term `setField` preserves the key set (up to the written key). -/
theorem hasKey_setField (res : List (String × JSValue)) (k k2 : String) (v : JSValue) :
    hasKey (setField res k v) k2 = (hasKey res k2 || (k == k2)) := by
  induction res with
  | nil =>
      simp [setField, hasKey, List.any_cons]
  | cons hd tl ih =>
      obtain ⟨k', v'⟩ := hd
      rw [setField_cons]
      by_cases hk : k' = k
      · subst hk
        rw [if_pos rfl, hasKey_cons, hasKey_cons]
        by_cases h2 : k' = k2
        · subst h2; simp
        · have hb : (k' == k2) = false := by simp [h2]
          simp [hb]
      · rw [if_neg hk, hasKey_cons, hasKey_cons, ih]
        simp [Bool.or_assoc]

/-- Merging fields none of which carry `k` leaves the value at `k`
unchanged. -/
theorem getField_dmFields_not_mem (fs : List (String × JSValue)) :
    ∀ (res : List (String × JSValue)) (k : String), (∀ e ∈ fs, e.1 ≠ k) →
    getField (dmFields res fs) k = getField res k := by
  induction fs with
  | nil => intro res k _; rfl
  | cons hd tl ih =>
      intro res k h
      obtain ⟨k', v'⟩ := hd
      have hk : k' ≠ k := h (k', v') (by simp)
      simp only [dmFields]
      rw [ih _ k fun e he => h e (List.mem_cons_of_mem _ he), getField_setField]
      have h2 : k ≠ k' := fun hh => hk hh.symm
      simp [h2]

/-- Reading the merged fields: a key carried by the source (keys unique,
as in a JavaScript object) yields the source value, recursively merged
onto the target's value when it is a plain object; a key the source does
not carry keeps the target's value. -/
theorem getField_dmFields (fs : List (String × JSValue)) :
    ∀ (res : List (String × JSValue)) (k : String), (fs.map Prod.fst).Nodup →
    getField (dmFields res fs) k =
      if hasKey fs k then
        (if (getField fs k).isMergeObj then
          deepMerge (jsOr (getField res k) (.obj [])) (getField fs k)
        else getField fs k)
      else getField res k := by
  induction fs with
  | nil => intro res k _; rfl
  | cons hd tl ih =>
      intro res k hnd
      obtain ⟨k', v'⟩ := hd
      have hnd' : (tl.map Prod.fst).Nodup := (List.nodup_cons.mp hnd).2
      have hnotin : k' ∉ tl.map Prod.fst := (List.nodup_cons.mp hnd).1
      by_cases hk : k' = k
      · subst hk
        have htl : ∀ e ∈ tl, e.1 ≠ k' := by
          intro e he hc
          exact hnotin (hc ▸ List.mem_map_of_mem Prod.fst he)
        simp only [dmFields]
        rw [getField_dmFields_not_mem tl _ k' htl, getField_setField, if_pos rfl,
          hasKey_cons, getField_cons, if_pos rfl]
        simp
      · simp only [dmFields]
        rw [ih _ k hnd', getField_setField]
        have h2 : k ≠ k' := fun hh => hk hh.symm
        rw [if_neg h2, hasKey_cons, getField_cons, if_neg hk]
        have hb : (k' == k) = false := by simp [hk]
        simp [hb]

/-- The term `dmFields` adds exactly the source's keys to the result's key set. -/
theorem hasKey_dmFields (fs : List (String × JSValue)) :
    ∀ (res : List (String × JSValue)) (k : String),
    hasKey (dmFields res fs) k = (hasKey res k || hasKey fs k) := by
  induction fs with
  | nil => intro res k; simp [dmFields, hasKey]
  | cons hd tl ih =>
      intro res k
      obtain ⟨k', v'⟩ := hd
      simp only [dmFields]
      rw [ih, hasKey_setField, hasKey_cons]
      by_cases h : k' = k
      · subst h; simp
      · have hb : (k' == k) = false := by simp [h]
        simp [hb, Bool.or_assoc, Bool.or_comm]

/-- Reading a key off an object as an `Option`: present keys give their
(first) value, absent keys give `none`. -/
theorem getF_cons (k' : String) (v' : JSValue) (tl : List (String × JSValue))
    (k : String) :
    (JSValue.obj ((k', v') :: tl)).getF k =
      if k' = k then some v' else (JSValue.obj tl).getF k := by
  by_cases h : k' = k
  · subst h
    simp [JSValue.getF, List.find?_cons_of_pos]
  · have hb : ¬((((k', v') : String × JSValue).1 == k) = true) := by simp [h]
    simp [JSValue.getF, List.find?_cons_of_neg _ hb, h]

/-- Reading a key off an object as an `Option`: present keys give their
(first) value, absent keys give `none`. -/
theorem getF_obj (l : List (String × JSValue)) (k : String) :
    (JSValue.obj l).getF k = if hasKey l k then some (getField l k) else none := by
  induction l with
  | nil => rfl
  | cons hd tl ih =>
      obtain ⟨k', v'⟩ := hd
      rw [getF_cons, hasKey_cons, getField_cons]
      by_cases h : k' = k
      · subst h; simp
      · have hbf : (k' == k) = false := by simp [h]
        simp [h, hbf, ih]

/-- A key no field carries reads as `undefined`. -/
theorem getField_eq_undef (l : List (String × JSValue)) (k : String)
    (h : hasKey l k = false) : getField l k = .undefined := by
  induction l with
  | nil => rfl
  | cons hd tl ih =>
      obtain ⟨k', v'⟩ := hd
      rw [hasKey_cons, Bool.or_eq_false_iff] at h
      have hk : k' ≠ k := by simpa using h.1
      rw [getField_cons, if_neg hk]
      exact ih h.2

mutual
/-- Well-formedness of a value as produced by `JSON.parse` or an object
literal: every (nested) object's keys are pairwise distinct. -/
def JSValue.wfKeys : JSValue → Bool
  | .obj fs => Decidable.decide ((fs.map Prod.fst).Nodup) && wfFieldsKeys fs
  | _ => true

/-- The term `JSValue.wfKeys` over a field list. -/
def wfFieldsKeys : List (String × JSValue) → Bool
  | [] => true
  | (_, v) :: rest => v.wfKeys && wfFieldsKeys rest
end

/-- A well-formed field list has well-formed values. -/
theorem wfKeys_of_mem_fields (fs : List (String × JSValue)) (k : String)
    (v : JSValue) (hmem : (k, v) ∈ fs) (h : wfFieldsKeys fs = true) :
    v.wfKeys = true := by
  induction fs with
  | nil => cases hmem
  | cons hd tl ih =>
      obtain ⟨k', v'⟩ := hd
      simp only [wfFieldsKeys, Bool.and_eq_true] at h
      rcases List.mem_cons.mp hmem with hh | hh
      · cases hh; exact h.1
      · exact ih hh h.2

/-- Writing an absent key appends it. -/
theorem setField_append (res : List (String × JSValue)) (k : String) (v : JSValue)
    (h : ∀ e ∈ res, e.1 ≠ k) : setField res k v = res ++ [(k, v)] := by
  induction res with
  | nil => rfl
  | cons hd tl ih =>
      obtain ⟨k', v'⟩ := hd
      have hk : k' ≠ k := h (k', v') (by simp)
      rw [setField_cons, if_neg hk, ih fun e he => h e (List.mem_cons_of_mem _ he)]
      simp

/-- A value is below any object that carries it in a field. -/
theorem sizeOf_lt_of_field (fs : List (String × JSValue)) (k : String) (v : JSValue)
    (h : (k, v) ∈ fs) : sizeOf v < sizeOf (JSValue.obj fs) := by
  have h1 : sizeOf (k, v) < sizeOf fs := List.sizeOf_lt_of_mem h
  have h2 : sizeOf ((k, v) : String × JSValue) = 1 + sizeOf k + sizeOf v := rfl
  simp only [JSValue.obj.sizeOf_spec]
  omega

/-- Merging source fields with fresh keys onto an accumulator appends the
merged fields in order. -/
theorem dmFields_fresh (fs : List (String × JSValue)) :
    ∀ (acc : List (String × JSValue)),
    (∀ e ∈ acc, ∀ e2 ∈ fs, e.1 ≠ e2.1) → (fs.map Prod.fst).Nodup →
    dmFields acc fs = acc ++ fs.map fun e =>
      (e.1, if e.2.isMergeObj then deepMerge (.obj []) e.2 else e.2) := by
  induction fs with
  | nil => intro acc _ _; simp [dmFields]
  | cons hd tl ih =>
      intro acc hdis hnd
      obtain ⟨k, v⟩ := hd
      have hk : ∀ e ∈ acc, e.1 ≠ k := fun e he => hdis e he (k, v) (by simp)
      have hkK : hasKey acc k = false := by
        rw [← Bool.not_eq_true]
        simp only [hasKey, List.any_eq_true, not_exists, not_and]
        intro e he
        simp [hk e he]
      have hget : getField acc k = .undefined := getField_eq_undef acc k hkK
      simp only [dmFields]
      rw [hget]
      have hor : jsOr JSValue.undefined (.obj []) = .obj [] := rfl
      rw [hor, setField_append acc k _ hk]
      have hnotin : k ∉ tl.map Prod.fst := (List.nodup_cons.mp hnd).1
      have hdis' : ∀ e ∈ acc ++ [(k, (if v.isMergeObj then deepMerge (.obj []) v else v))],
          ∀ e2 ∈ tl, e.1 ≠ e2.1 := by
        intro e he e2 he2
        rcases List.mem_append.mp he with hh | hh
        · exact hdis e hh e2 (List.mem_cons_of_mem _ he2)
        · simp only [List.mem_singleton] at hh
          subst hh
          intro hc
          have hck : k = e2.1 := hc
          exact hnotin (hck.symm ▸ List.mem_map_of_mem Prod.fst he2)
      rw [ih _ hdis' (List.nodup_cons.mp hnd).2]
      simp

/-- Merging a well-formed plain object onto the empty object reproduces it
field for field. -/
theorem deepMerge_empty (v : JSValue) (hwf : v.wfKeys = true)
    (hobj : v.isMergeObj = true) : deepMerge (.obj []) v = v := by
  generalize hn : sizeOf v = n
  induction n using Nat.strong_induction_on generalizing v with
  | _ n ih =>
      match v, hobj with
      | .obj fs, _ =>
          simp only [JSValue.wfKeys, Bool.and_eq_true, decide_eq_true_eq] at hwf
          simp only [deepMerge, spreadEntries]
          rw [dmFields_fresh fs [] (by intro e he; cases he) hwf.1]
          have hfix : ∀ e ∈ fs,
              ((e.1, if e.2.isMergeObj then deepMerge (.obj []) e.2 else e.2)
                : String × JSValue) = e := by
            intro e he
            obtain ⟨k, w⟩ := e
            by_cases hm : w.isMergeObj
            · have hlt : sizeOf w < n := hn ▸ sizeOf_lt_of_field fs k w he
              have hwfw : w.wfKeys = true := wfKeys_of_mem_fields fs k w he hwf.2
              simp only [hm, if_true]
              rw [ih (sizeOf w) hlt w hwfw hm rfl]
            · simp [hm]
          simp only [List.nil_append]
          congr 1
          calc (fs.map fun e =>
                  (e.1, if e.2.isMergeObj then deepMerge (.obj []) e.2 else e.2))
              = fs.map id := List.map_congr_left hfix
            _ = fs := List.map_id fs

/-- The term `getFD` on an object is the field read with `undefined` default. -/
theorem getFD_obj (l : List (String × JSValue)) (k : String) :
    getFD (.obj l) k = getField l k := by
  simp only [getFD, JSValue.getF, getField]
  cases h : l.find? (fun e => e.1 == k) <;> simp

/-- C4: `validateOptions` deep-merges the user options over the documented
defaults (`inputDir './'`, `outputDir './dist'`, four enabled categories,
`backup false`, `verbose false`): the concrete scenario
`validate({css: {level: 1}})` yields `css.level === 1` with every other
field at its default; primitive- and array-valued user fields replace the
default; fields the user does not supply keep their defaults; plain-object
user fields are merged recursively onto the default value; and unknown
keys pass through untouched. -/
theorem claim_c4_validateOptions_deep_merge (fs : List (String × JSValue))
    (hnd : (fs.map Prod.fst).Nodup) :
    validateOptions (.obj [("css", .obj [("level", .num 1)])]) =
      .obj [("inputDir", .str "./"), ("outputDir", .str "./dist"),
            ("html", .bool true), ("css", .obj [("level", .num 1)]),
            ("js", .bool true), ("images", .bool true),
            ("backup", .bool false), ("verbose", .bool false)] ∧
    (∀ (k : String) (v : JSValue),
      (JSValue.obj fs).getF k = some v → v.isMergeObj = false →
      (validateOptions (.obj fs)).getF k = some v) ∧
    (∀ k : String, (JSValue.obj fs).getF k = none →
      (validateOptions (.obj fs)).getF k = defaultOptions.getF k) ∧
    (∀ (k : String) (v : JSValue),
      (JSValue.obj fs).getF k = some v → v.isMergeObj = true →
      (validateOptions (.obj fs)).getF k =
        some (deepMerge (jsOr (getFD defaultOptions k) (.obj [])) v)) ∧
    (∀ (k : String) (v : JSValue),
      defaultOptions.getF k = none → (JSValue.obj fs).getF k = some v →
      v.wfKeys = true → (validateOptions (.obj fs)).getF k = some v) := by
  have hdef : ∀ (opts : List (String × JSValue)), validateOptions (.obj opts) =
      .obj (dmFields (spreadEntries defaultOptions) opts) := fun _ => rfl
  have hsome : ∀ (k : String) (v : JSValue), (JSValue.obj fs).getF k = some v →
      hasKey fs k = true ∧ getField fs k = v := by
    intro k v h
    rw [getF_obj] at h
    by_cases hk : hasKey fs k
    · rw [if_pos hk] at h
      exact ⟨hk, Option.some_injective _ h⟩
    · rw [if_neg hk] at h; cases h
  have hnone : ∀ k : String, (JSValue.obj fs).getF k = none → hasKey fs k = false := by
    intro k h
    rw [getF_obj] at h
    by_cases hk : hasKey fs k
    · rw [if_pos hk] at h; cases h
    · simpa using hk
  refine ⟨rfl, ?_, ?_, ?_, ?_⟩
  · intro k v h hm
    obtain ⟨hk, hg⟩ := hsome k v h
    rw [hdef, getF_obj, hasKey_dmFields, hk, Bool.or_true, if_pos rfl,
      getField_dmFields fs _ k hnd, hk, if_pos rfl, hg, hm, if_neg (by simp)]
  · intro k h
    have hk := hnone k h
    rw [hdef, getF_obj, hasKey_dmFields, hk, Bool.or_false,
      getField_dmFields fs _ k hnd, hk]
    simp only [Bool.false_eq_true, if_false]
    rw [show defaultOptions.getF k = _ from getF_obj _ k]
    rfl
  · intro k v h hm
    obtain ⟨hk, hg⟩ := hsome k v h
    have h4 : getFD defaultOptions k = getField (spreadEntries defaultOptions) k :=
      getFD_obj _ k
    rw [hdef, getF_obj, hasKey_dmFields, hk, Bool.or_true, if_pos rfl,
      getField_dmFields fs _ k hnd, hk, if_pos rfl, hg, hm, if_pos rfl, h4]
  · intro k v hdk h hwf
    obtain ⟨hk, hg⟩ := hsome k v h
    have hdkf : hasKey (spreadEntries defaultOptions) k = false := by
      have hdk2 : (JSValue.obj (spreadEntries defaultOptions)).getF k = none := hdk
      rw [getF_obj] at hdk2
      by_cases hh : hasKey (spreadEntries defaultOptions) k
      · rw [if_pos hh] at hdk2; cases hdk2
      · simpa using hh
    have hund : getField (spreadEntries defaultOptions) k = .undefined :=
      getField_eq_undef _ k hdkf
    rw [hdef, getF_obj, hasKey_dmFields, hk, Bool.or_true, if_pos rfl,
      getField_dmFields fs _ k hnd, hk, if_pos rfl, hg, hund]
    by_cases hm : v.isMergeObj
    · rw [if_pos hm]
      have : jsOr JSValue.undefined (.obj []) = .obj [] := rfl
      rw [this, deepMerge_empty v hwf hm]
    · rw [if_neg hm]

/-- Witness for C4 at a concrete options object exercising every clause:
a nested `css` object, a replaced primitive, an untouched default, an
unknown plain-object key. -/
theorem claim_c4_validateOptions_deep_merge_witness :
    (validateOptions (.obj [("css", .obj [("level", .num 1)])]) =
      .obj [("inputDir", .str "./"), ("outputDir", .str "./dist"),
            ("html", .bool true), ("css", .obj [("level", .num 1)]),
            ("js", .bool true), ("images", .bool true),
            ("backup", .bool false), ("verbose", .bool false)]) ∧
    ((validateOptions (.obj [("verbose", .bool true), ("extra", .obj [("a", .num 2)])])).getF
        "verbose" = some (.bool true)) ∧
    ((validateOptions (.obj [("verbose", .bool true), ("extra", .obj [("a", .num 2)])])).getF
        "backup" = defaultOptions.getF "backup") ∧
    ((validateOptions (.obj [("verbose", .bool true), ("extra", .obj [("a", .num 2)])])).getF
        "extra" = some (.obj [("a", .num 2)])) := by
  have h := claim_c4_validateOptions_deep_merge
    [("verbose", .bool true), ("extra", .obj [("a", .num 2)])] (by simp)
  exact ⟨h.1, h.2.1 "verbose" (.bool true) rfl rfl, h.2.2.1 "backup" rfl,
    h.2.2.2.2 "extra" (.obj [("a", .num 2)]) rfl rfl (by rfl)⟩

/-! ## Write-trace lemmas for the category loops (claims C1, C2, C7) -/

/-- The term `ensureDir` never touches file contents. -/
theorem FS.files_ensureDir (fs : FS) (p : FPath) :
    (fs.ensureDir p).files = fs.files := by
  unfold FS.ensureDir FS.mkdirRec
  split <;> rfl

/-- The term `ensureDir` never removes a directory. -/
theorem FS.hasDir_ensureDir_mono (fs : FS) (p q : FPath)
    (h : fs.hasDir q = true) : (fs.ensureDir p).hasDir q = true := by
  unfold FS.ensureDir
  split
  · exact h
  · have hm : q ∈ fs.dirs := by
      have hh : fs.dirs.elem q = true := h
      exact List.mem_of_elem_eq_true hh
    show (ancestors p ++ fs.dirs).contains q = true
    exact List.elem_eq_true_of_mem (List.mem_append.mpr (Or.inr hm))

/-- Writing one path does not create files elsewhere. -/
theorem FS.hasFile_writeFile_ne (fs : FS) (p q : FPath) (c : Content)
    (h : p ≠ q) : (fs.writeFile p c).hasFile q = fs.hasFile q := by
  have hw : (fs.writeFile p c).files = (p, c) :: fs.files := rfl
  have hb : ¬((fun e : FPath × Content => e.1 == q) (p, c) = true) := by simp [h]
  simp only [FS.hasFile, FS.lookup, hw]
  rw [List.find?_cons_of_neg fs.files hb]

/-- The term `find?` distributes over append. -/
theorem find?_append {α : Type} (l1 l2 : List α) (p : α → Bool) :
    (l1 ++ l2).find? p = ((l1.find? p).orElse fun _ => l2.find? p) := by
  induction l1 with
  | nil => simp
  | cons hd tl ih =>
      by_cases h : p hd
      · simp [List.find?_cons_of_pos _ h]
      · simp only [List.cons_append, List.find?_cons_of_neg _ h, ih]

/-- In a list whose keys are pairwise distinct, `find?` on a carried key
returns exactly the carrying entry. -/
theorem find?_of_nodup (l : List (FPath × Content)) (p : FPath) (c : Content)
    (hnd : (l.map Prod.fst).Nodup) (hmem : (p, c) ∈ l) :
    (l.find? fun e => e.1 == p) = some (p, c) := by
  induction l with
  | nil => cases hmem
  | cons hd tl ih =>
      rcases List.mem_cons.mp hmem with hh | hh
      · subst hh
        refine List.find?_cons_of_pos tl ?_
        show ((p, c).1 == p) = true
        simp
      · have hq : hd.1 ≠ p := by
          intro hc
          refine (List.nodup_cons.mp hnd).1 ?_
          have : p ∈ tl.map Prod.fst := List.mem_map_of_mem Prod.fst hh
          rw [hc]
          exact this
        have hb : ¬((fun e : FPath × Content => e.1 == p) hd = true) := by simp [hq]
        rw [List.find?_cons_of_neg tl hb]
        exact ih (List.nodup_cons.mp hnd).2 hh

/-- The chronological write sequence a text-category loop performs: one
output per file up to (and excluding) the first compressor failure. -/
def filesTrace (outRoot : FPath) (a : FPath → Except Err Content) :
    List FPath → List (FPath × Content)
  | [] => []
  | f :: rest =>
      match a f with
      | .error _ => []
      | .ok c => (outRoot ++ f, c) :: filesTrace outRoot a rest

/-- The error a text-category loop propagates: the first compressor
failure, if any. -/
def filesErr (a : FPath → Except Err Content) : List FPath → Option Err
  | [] => none
  | f :: rest =>
      match a f with
      | .error e => some e
      | .ok _ => filesErr a rest

/-- The term `processFiles` writes exactly its trace (newest first) on top of the
initial filesystem, and propagates exactly the first compressor error —
independently of the initial state. -/
theorem processFiles_factor (t : FTree) (outRoot : FPath)
    (a : FPath → Except Err Content) :
    ∀ (files : List FPath) (s : RunState),
      ((processFiles t outRoot a files s).1).fs.files
          = (filesTrace outRoot a files).reverse ++ s.fs.files ∧
      (processFiles t outRoot a files s).2 = filesErr a files := by
  intro files
  induction files with
  | nil => intro s; exact ⟨rfl, rfl⟩
  | cons f rest ih =>
      intro s
      simp only [processFiles, filesTrace, filesErr]
      cases h : a f with
      | error e => exact ⟨by simp [FS.files_ensureDir], rfl⟩
      | ok c =>
          obtain ⟨h1, h2⟩ := ih
            { fs := (s.fs.ensureDir (outRoot ++ f).dropLast).writeFile (outRoot ++ f) c,
              stats := updateStats s.stats (getFileSizeTree t f)
                (getFileSizeFS ((s.fs.ensureDir (outRoot ++ f).dropLast).writeFile
                  (outRoot ++ f) c) (outRoot ++ f)) }
          refine ⟨?_, h2⟩
          rw [h1]
          simp [FS.writeFile, FS.files_ensureDir, List.reverse_cons, List.append_assoc]

/-! ## Directory-creation lemmas (claim C1) -/

/-- Membership in `ancestors`. -/
theorem mem_ancestors (p q : FPath) :
    q ∈ ancestors p ↔ ∃ i, i < p.length ∧ q = p.take (i + 1) := by
  simp [ancestors, eq_comm]

/-- A nonempty path is its own deepest ancestor. -/
theorem self_mem_ancestors (p : FPath) (h : p ≠ []) : p ∈ ancestors p := by
  have hl : 0 < p.length := List.length_pos.mpr h
  refine (mem_ancestors p p).mpr ⟨p.length - 1, by omega, ?_⟩
  rw [show p.length - 1 + 1 = p.length by omega, List.take_length]

/-- An ancestor of an ancestor is an ancestor. -/
theorem ancestors_trans (p q r : FPath) (hq : q ∈ ancestors p)
    (hr : r ∈ ancestors q) : r ∈ ancestors p := by
  obtain ⟨i, hi, rfl⟩ := (mem_ancestors p q).mp hq
  obtain ⟨j, hj, rfl⟩ := (mem_ancestors _ r).mp hr
  rw [List.length_take] at hj
  refine (mem_ancestors p _).mpr ⟨j, ?_, ?_⟩
  · omega
  · rw [List.take_take]
    congr 1
    omega

/-- The term `mkdirSync(p, {recursive: true})` creates every ancestor of `p`. -/
theorem FS.hasDir_mkdirRec (fs : FS) (p q : FPath) (h : q ∈ ancestors p) :
    (fs.mkdirRec p).hasDir q = true := by
  show (ancestors p ++ fs.dirs).contains q = true
  exact List.elem_eq_true_of_mem (List.mem_append.mpr (Or.inl h))

/-- The term `mkdirSync` keeps existing directories. -/
theorem FS.hasDir_mkdirRec_mono (fs : FS) (p q : FPath) (h : fs.hasDir q = true) :
    (fs.mkdirRec p).hasDir q = true := by
  show (ancestors p ++ fs.dirs).contains q = true
  exact List.elem_eq_true_of_mem
    (List.mem_append.mpr (Or.inr (List.mem_of_elem_eq_true h)))

/-- After the `ensureDir` idiom, every ancestor of the requested directory
exists — provided no plain file sits at the directory's path and the
directory, when it already exists, has its ancestors in place (true of any
filesystem produced by actual `mkdir` calls). -/
theorem FS.hasDir_ensureDir (fs : FS) (d : FPath)
    (hnof : fs.hasFile d = false)
    (hcl : fs.hasDir d = true → ∀ q ∈ ancestors d, fs.hasDir q = true) :
    ∀ q ∈ ancestors d, (fs.ensureDir d).hasDir q = true := by
  intro q hq
  unfold FS.ensureDir
  split
  · rename_i hex
    have hdir : fs.hasDir d = true := by
      have hex2 : (fs.hasDir d || fs.hasFile d) = true := hex
      rw [hnof, Bool.or_false] at hex2
      exact hex2
    exact hcl hdir q hq
  · exact FS.hasDir_mkdirRec fs d q hq

/-- A directory existing before a category loop still exists after it. -/
theorem processFiles_hasDir_mono (t : FTree) (outRoot : FPath)
    (a : FPath → Except Err Content) :
    ∀ (files : List FPath) (s : RunState) (q : FPath), s.fs.hasDir q = true →
      ((processFiles t outRoot a files s).1).fs.hasDir q = true := by
  intro files
  induction files with
  | nil => intro s q h; exact h
  | cons f rest ih =>
      intro s q h
      simp only [processFiles]
      cases hf : a f with
      | error e => exact FS.hasDir_ensureDir_mono _ _ _ h
      | ok c =>
          exact ih _ q (FS.hasDir_ensureDir_mono _ _ _ h)

/-- During a category loop every processed file gets the full ancestor
chain of its output directory created, provided the initial filesystem has
no plain file in the way, none of the loop's own writes lands on a
directory path, and pre-existing directories come with their ancestors. -/
theorem processFiles_dirs (t : FTree) (outRoot : FPath)
    (a : FPath → Except Err Content) :
    ∀ (files : List FPath) (s : RunState),
    (∀ f ∈ files, (a f).isOk = true) →
    (∀ f ∈ files, ∀ q ∈ ((outRoot ++ f).dropLast :: ancestors ((outRoot ++ f).dropLast)),
      s.fs.hasFile q = false) →
    (∀ f ∈ files, ∀ q ∈ ((outRoot ++ f).dropLast :: ancestors ((outRoot ++ f).dropLast)),
      ∀ f2 ∈ files, outRoot ++ f2 ≠ q) →
    (∀ f ∈ files, ∀ d ∈ ((outRoot ++ f).dropLast :: ancestors ((outRoot ++ f).dropLast)),
      s.fs.hasDir d = true → ∀ q ∈ ancestors d, s.fs.hasDir q = true) →
    ∀ f ∈ files, ∀ q ∈ ancestors ((outRoot ++ f).dropLast),
      ((processFiles t outRoot a files s).1).fs.hasDir q = true := by
  intro files
  induction files with
  | nil => intro s _ _ _ _ f hf; cases hf
  | cons g rest ih =>
      intro s hok hnof hnow hcl f hf q hq
      obtain ⟨c, hc⟩ : ∃ c, a g = .ok c := by
        have hg := hok g (List.mem_cons_self g rest)
        cases hag : a g
        · rw [hag] at hg; cases hg
        · exact ⟨_, rfl⟩
      simp only [processFiles, hc]
      set d0 := (outRoot ++ g).dropLast with hd0
      have hens : ∀ q2 ∈ ancestors d0, (s.fs.ensureDir d0).hasDir q2 = true := by
        refine FS.hasDir_ensureDir s.fs d0 ?_ ?_
        · exact hnof g (List.mem_cons_self g rest) d0 (List.mem_cons_self _ _)
        · intro hdir q2 hq2
          exact hcl g (List.mem_cons_self g rest) d0 (List.mem_cons_self _ _) hdir q2 hq2
      rcases List.mem_cons.mp hf with rfl | hf'
      · have h1 : ((s.fs.ensureDir d0).writeFile (outRoot ++ f) c).hasDir q = true := by
          show (s.fs.ensureDir d0).hasDir q = true
          exact hens q hq
        exact processFiles_hasDir_mono t outRoot a rest _ q h1
      · set fs2 := (s.fs.ensureDir d0).writeFile (outRoot ++ g) c with hfs2
        have hfsfiles : fs2.files = (outRoot ++ g, c) :: s.fs.files := by
          show ((s.fs.ensureDir d0).writeFile (outRoot ++ g) c).files
            = (outRoot ++ g, c) :: s.fs.files
          have := FS.files_ensureDir s.fs d0
          simp [FS.writeFile, this]
        have hfile2 : ∀ f2 ∈ rest,
            ∀ q2 ∈ ((outRoot ++ f2).dropLast :: ancestors ((outRoot ++ f2).dropLast)),
            fs2.hasFile q2 = false := by
          intro f2 hf2 q2 hq2
          have hne : outRoot ++ g ≠ q2 :=
            hnow f2 (List.mem_cons_of_mem _ hf2) q2 hq2 g (List.mem_cons_self g rest)
          have hstep : fs2.hasFile q2 = s.fs.hasFile q2 := by
            have hb : ¬((fun e : FPath × Content => e.1 == q2) (outRoot ++ g, c) = true) := by
              simp [hne]
            simp only [FS.hasFile, FS.lookup, hfsfiles]
            rw [List.find?_cons_of_neg s.fs.files hb]
          rw [hstep]
          exact hnof f2 (List.mem_cons_of_mem _ hf2) q2 hq2
        have hcl2 : ∀ f2 ∈ rest,
            ∀ d ∈ ((outRoot ++ f2).dropLast :: ancestors ((outRoot ++ f2).dropLast)),
            fs2.hasDir d = true → ∀ q2 ∈ ancestors d, fs2.hasDir q2 = true := by
          intro f2 hf2 d hd hdir q2 hq2
          have hdir' : (s.fs.ensureDir d0).hasDir d = true := hdir
          show (s.fs.ensureDir d0).hasDir q2 = true
          by_cases hcase : s.fs.existsSync d0 = true
          · have heq : s.fs.ensureDir d0 = s.fs := by
              unfold FS.ensureDir; rw [if_pos hcase]
            rw [heq] at hdir' ⊢
            exact hcl f2 (List.mem_cons_of_mem _ hf2) d hd hdir' q2 hq2
          · have heq : s.fs.ensureDir d0 = s.fs.mkdirRec d0 := by
              unfold FS.ensureDir; rw [if_neg hcase]
            rw [heq] at hdir' ⊢
            have hmem : d ∈ ancestors d0 ∨ d ∈ s.fs.dirs := by
              have hh : d ∈ ancestors d0 ++ s.fs.dirs :=
                List.mem_of_elem_eq_true hdir'
              exact List.mem_append.mp hh
            rcases hmem with h1 | h1
            · exact FS.hasDir_mkdirRec s.fs d0 q2 (ancestors_trans d0 d q2 h1 hq2)
            · have h5 : s.fs.hasDir q2 = true :=
                hcl f2 (List.mem_cons_of_mem _ hf2) d hd
                  (List.elem_eq_true_of_mem h1) q2 hq2
              exact FS.hasDir_mkdirRec_mono s.fs d0 q2 h5
        refine ih
          { fs := fs2,
            stats := updateStats s.stats (getFileSizeTree t g)
              (getFileSizeFS fs2 (outRoot ++ g)) }
          (fun f2 hf2 => hok f2 (List.mem_cons_of_mem _ hf2)) hfile2
          (fun f2 hf2 q2 hq2 f3 hf3 =>
            hnow f2 (List.mem_cons_of_mem _ hf2) q2 hq2 f3 (List.mem_cons_of_mem _ hf3))
          hcl2 f hf' q hq

/-! ## Claim C1: mirrored output paths -/

/-- The value inside a successful compression, with a placeholder on
failure (used only on results known to be successes). -/
def okD : Except Err Content → Content
  | .ok c => c
  | .error _ => ""

/-- When every compression succeeds, the trace is one mirrored write per
enumerated file, in order. -/
theorem filesTrace_all_ok (outRoot : FPath) (a : FPath → Except Err Content) :
    ∀ files : List FPath, (∀ f ∈ files, (a f).isOk = true) →
    filesTrace outRoot a files = files.map fun f => (outRoot ++ f, okD (a f)) := by
  intro files
  induction files with
  | nil => intro _; rfl
  | cons f rest ih =>
      intro hok
      obtain ⟨c, hc⟩ : ∃ c, a f = .ok c := by
        have hg := hok f (List.mem_cons_self f rest)
        cases hag : a f
        · rw [hag] at hg; cases hg
        · exact ⟨_, rfl⟩
      simp only [filesTrace, hc, List.map_cons]
      rw [ih fun f2 hf2 => hok f2 (List.mem_cons_of_mem _ hf2)]
      simp [okD, hc]

/-- C1: for every file discovered under a category's glob pattern during a
run in which compression succeeds, the optimized output is written exactly
at `outputRoot ++ relativePath` (identical intermediate segments),
overwriting unconditionally whatever the initial filesystem stored there;
all missing intermediate directories under the output root exist
afterwards; and within each loop iteration the `ensureDir` strictly
precedes the write (third conjunct: the iteration's effect on the
filesystem is literally a `writeFile` applied to the `ensureDir`-ed
state).  The path hypotheses say the initial output filesystem is sane:
no plain file occupies a directory position and directories come with
their ancestors. -/
theorem claim_c1_mirrored_output (t : FTree) (outRoot : FPath)
    (a : FPath → Except Err Content) (exts : List String) (s : RunState)
    (hnd : (globModel t exts).Nodup)
    (hok : ∀ f ∈ globModel t exts, (a f).isOk = true)
    (hnof : ∀ f ∈ globModel t exts,
      ∀ q ∈ ((outRoot ++ f).dropLast :: ancestors ((outRoot ++ f).dropLast)),
      s.fs.hasFile q = false)
    (hnow : ∀ f ∈ globModel t exts,
      ∀ q ∈ ((outRoot ++ f).dropLast :: ancestors ((outRoot ++ f).dropLast)),
      ∀ f2 ∈ globModel t exts, outRoot ++ f2 ≠ q)
    (hcl : ∀ f ∈ globModel t exts,
      ∀ d ∈ ((outRoot ++ f).dropLast :: ancestors ((outRoot ++ f).dropLast)),
      s.fs.hasDir d = true → ∀ q ∈ ancestors d, s.fs.hasDir q = true) :
    (∀ f ∈ globModel t exts, ∀ c, a f = .ok c →
      ((processFiles t outRoot a (globModel t exts) s).1).fs.lookup (outRoot ++ f)
        = some c) ∧
    (∀ f ∈ globModel t exts, ∀ q ∈ ancestors ((outRoot ++ f).dropLast),
      ((processFiles t outRoot a (globModel t exts) s).1).fs.hasDir q = true) ∧
    (∀ (s2 : RunState) (f2 : FPath) (c : Content), a f2 = .ok c →
      ((processFiles t outRoot a [f2] s2).1).fs
        = (s2.fs.ensureDir (outRoot ++ f2).dropLast).writeFile (outRoot ++ f2) c) := by
  have hfac := processFiles_factor t outRoot a (globModel t exts) s
  refine ⟨?_, ?_, ?_⟩
  · intro f hf c hc
    have htr : filesTrace outRoot a (globModel t exts)
        = (globModel t exts).map fun f2 => (outRoot ++ f2, okD (a f2)) :=
      filesTrace_all_ok outRoot a _ hok
    have hmem : (outRoot ++ f, c) ∈ (filesTrace outRoot a (globModel t exts)).reverse := by
      rw [htr, List.mem_reverse]
      have hcd : okD (a f) = c := by rw [hc]; rfl
      rw [← hcd]
      exact List.mem_map_of_mem _ hf
    have hndtr : ((filesTrace outRoot a (globModel t exts)).reverse.map Prod.fst).Nodup := by
      rw [htr, List.map_reverse, List.map_map]
      refine List.nodup_reverse.mpr ?_
      have hinj : Function.Injective fun f2 : FPath => outRoot ++ f2 :=
        fun x y hxy => List.append_cancel_left hxy
      exact hnd.map hinj
    have hfind := find?_of_nodup _ (outRoot ++ f) c hndtr hmem
    show FS.lookup _ (outRoot ++ f) = some c
    simp only [FS.lookup, hfac.1]
    rw [find?_append, hfind]
    rfl
  · intro f hf q hq
    exact processFiles_dirs t outRoot a _ s hok hnof hnow hcl f hf q hq
  · intro s2 f2 c hc
    simp [processFiles, hc]

/-- A small concrete input tree shared by the pipeline witnesses. -/
def demoTree : FTree :=
  .mk [.file "a.html" "aaaa", .dir "sub" (.mk [.file "b.html" "bb"]),
       .file "style.css" "cc"]

/-- The empty initial run state. -/
def demoState : RunState := ⟨⟨[], []⟩, ⟨0, 0, 0, 0⟩⟩

/-- A compressor that always succeeds. -/
def demoHtml : FPath → Except Err Content := fun _ => .ok "min"

/-- Witness for C1 on the demo tree: both discovered html files land at
their mirrored paths under `dist` and the intermediate directory exists. -/
theorem claim_c1_mirrored_output_witness :
    ((processFiles demoTree ["dist"] demoHtml (globModel demoTree htmlExts)
        demoState).1).fs.lookup ["dist", "a.html"] = some "min" ∧
    ((processFiles demoTree ["dist"] demoHtml (globModel demoTree htmlExts)
        demoState).1).fs.lookup ["dist", "sub", "b.html"] = some "min" ∧
    ((processFiles demoTree ["dist"] demoHtml (globModel demoTree htmlExts)
        demoState).1).fs.hasDir ["dist", "sub"] = true := by
  have h := claim_c1_mirrored_output demoTree ["dist"] demoHtml htmlExts demoState
    (by decide) (by decide) (by decide) (by decide) (by decide)
  refine ⟨?_, ?_, ?_⟩
  · exact h.1 ["a.html"] (by decide) "min" rfl
  · exact h.1 ["sub", "b.html"] (by decide) "min" rfl
  · exact h.2.1 ["sub", "b.html"] (by decide) ["dist", "sub"] (by decide)

/-! ## Claim C2: strict fail-fast -/

/-- A phase that throws short-circuits the rest of the pipeline. -/
theorem seqE_of_error (f g : RunState → RunState × Option Err) (s : RunState)
    (e : Err) (h : (f s).2 = some e) : seqE f g s = f s := by
  unfold seqE
  cases hfs : f s with
  | mk s' r =>
      rw [hfs] at h
      simp only at h
      subst h
      rfl

/-- A phase that returns normally hands its state to the next phase. -/
theorem seqE_of_none (f g : RunState → RunState × Option Err) (s s' : RunState)
    (h : f s = (s', none)) : seqE f g s = g s' := by
  unfold seqE
  rw [h]

/-- Trace and error of a category loop whose N-th file fails: exactly the
first `N-1` mirrored writes happen, and the N-th file's error is the one
propagated. -/
theorem filesTrace_fail (outRoot : FPath) (a : FPath → Except Err Content) :
    ∀ (pre : List FPath) (bad : FPath) (post : List FPath) (e : Err),
    (∀ f ∈ pre, (a f).isOk = true) → a bad = .error e →
    filesTrace outRoot a (pre ++ bad :: post)
      = pre.map (fun f => (outRoot ++ f, okD (a f))) ∧
    filesErr a (pre ++ bad :: post) = some e := by
  intro pre
  induction pre with
  | nil =>
      intro bad post e _ hbad
      simp [filesTrace, filesErr, hbad]
  | cons f rest ih =>
      intro bad post e hok hbad
      obtain ⟨c, hc⟩ : ∃ c, a f = .ok c := by
        have hg := hok f (List.mem_cons_self f rest)
        cases hag : a f
        · rw [hag] at hg; cases hg
        · exact ⟨_, rfl⟩
      obtain ⟨ht, he⟩ := ih bad post e (fun f2 hf2 => hok f2 (List.mem_cons_of_mem _ hf2)) hbad
      have hcd : okD (a f) = c := by rw [hc]; rfl
      constructor
      · simp only [List.cons_append, filesTrace, hc, List.append_eq, ht, List.map_cons]
        rfl
      · simp only [List.cons_append, filesErr, hc, List.append_eq, he]

/-- Three top-level html files; the middle one will fail compression. -/
def demoTree2 : FTree :=
  .mk [.file "a.html" "aaaa", .file "b.html" "bbb", .file "c.html" "cc"]

/-- A compressor that throws on `b.html` only. -/
def demoHtmlFail : FPath → Except Err Content :=
  fun f => if f == ["b.html"] then .error "boom" else .ok "min"

/-- A run configuration for the fail-fast witness. -/
def demoCfg : RunConfig :=
  { backup := false, html := true, css := true, js := true, images := true,
    generateWebP := false,
    htmlAdapter := demoHtmlFail, cssAdapter := demoHtml, jsAdapter := demoHtml,
    imgAdapter := demoHtml, webpAdapter := demoHtml }

/-- No injected I/O failures. -/
def demoIoFail : FPath → Option Err := fun _ => none

/-! ## Claim C6: backup before any category processing -/

mutual
/-- The error `copyDirectory` propagates: the first `copyFileSync` throw
encountered on the depth-first walk, if any. -/
def copyDirErr (ioFail : FPath → Option Err) : FTree → FPath → Option Err
  | .mk es, dest => copyEntriesErr ioFail es dest

/-- The term `copyDirErr` over an entry list. -/
def copyEntriesErr (ioFail : FPath → Option Err) : List Dirent → FPath → Option Err
  | [], _ => none
  | .file n _ :: rest, dest =>
      match ioFail (dest ++ [n]) with
      | some e => some e
      | none => copyEntriesErr ioFail rest dest
  | .dir n t :: rest, dest =>
      match copyDirErr ioFail t (dest ++ [n]) with
      | some e => some e
      | none => copyEntriesErr ioFail rest dest
end

mutual
/-- The chronological sequence of file copies `copyDirectory` performs,
cut off at the first throw. -/
def copyTrace (ioFail : FPath → Option Err) : FTree → FPath → List (FPath × Content)
  | .mk es, dest => copyTraceE ioFail es dest

/-- The term `copyTrace` over an entry list. -/
def copyTraceE (ioFail : FPath → Option Err) : List Dirent → FPath → List (FPath × Content)
  | [], _ => []
  | .file n c :: rest, dest =>
      match ioFail (dest ++ [n]) with
      | some _ => []
      | none => (dest ++ [n], c) :: copyTraceE ioFail rest dest
  | .dir n t :: rest, dest =>
      copyTrace ioFail t (dest ++ [n]) ++
        (match copyDirErr ioFail t (dest ++ [n]) with
         | some _ => []
         | none => copyTraceE ioFail rest dest)
end

mutual
/-- The term `copyDirectory` writes exactly its trace on top of the initial
filesystem and propagates exactly its first error. -/
theorem copyDirectory_factor (ioFail : FPath → Option Err) :
    ∀ (t : FTree) (dest : FPath) (fs : FS),
      ((copyDirectory ioFail t dest fs).1).files
          = (copyTrace ioFail t dest).reverse ++ fs.files ∧
      (copyDirectory ioFail t dest fs).2 = copyDirErr ioFail t dest
  | .mk es, dest, fs => by
      simp only [copyDirectory, copyTrace, copyDirErr]
      exact copyEntries_factor ioFail es dest fs

/-- The term `copyDirectory_factor` over an entry list. -/
theorem copyEntries_factor (ioFail : FPath → Option Err) :
    ∀ (es : List Dirent) (dest : FPath) (fs : FS),
      ((copyEntries ioFail es dest fs).1).files
          = (copyTraceE ioFail es dest).reverse ++ fs.files ∧
      (copyEntries ioFail es dest fs).2 = copyEntriesErr ioFail es dest
  | [], dest, fs => by simp [copyEntries, copyTraceE, copyEntriesErr]
  | .file n c :: rest, dest, fs => by
      simp only [copyEntries, copyTraceE, copyEntriesErr]
      cases hio : ioFail (dest ++ [n]) with
      | some e => simp
      | none =>
          have h := copyEntries_factor ioFail rest dest (fs.writeFile (dest ++ [n]) c)
          refine ⟨?_, h.2⟩
          rw [h.1]
          simp [FS.writeFile, List.reverse_cons, List.append_assoc]
  | .dir n t :: rest, dest, fs => by
      simp only [copyEntries, copyTraceE, copyEntriesErr]
      have hsub := copyDirectory_factor ioFail t (dest ++ [n]) (fs.mkdirRec (dest ++ [n]))
      have hmk : (fs.mkdirRec (dest ++ [n])).files = fs.files := rfl
      cases herr : copyDirErr ioFail t (dest ++ [n]) with
      | some e =>
          cases hcd : copyDirectory ioFail t (dest ++ [n]) (fs.mkdirRec (dest ++ [n])) with
          | mk fs2 r =>
              rw [hcd] at hsub
              have hr : r = some e := by
                have h2 := hsub.2
                simp only at h2
                rw [herr] at h2
                exact h2
              subst hr
              refine ⟨?_, rfl⟩
              have := hsub.1
              simp only [hmk] at this
              simpa using this
      | none =>
          cases hcd : copyDirectory ioFail t (dest ++ [n]) (fs.mkdirRec (dest ++ [n])) with
          | mk fs2 r =>
              rw [hcd] at hsub
              have hr : r = none := by
                have h2 := hsub.2
                simp only at h2
                rw [herr] at h2
                exact h2
              subst hr
              have h := copyEntries_factor ioFail rest dest fs2
              refine ⟨?_, h.2⟩
              rw [h.1, hsub.1, hmk]
              simp [List.reverse_append, List.append_assoc]
end

mutual
/-- Without injected I/O failures the copy trace is every file of the
tree, copied byte-identically to its mirrored destination, and no error
arises. -/
theorem copyTrace_no_fail (ioFail : FPath → Option Err) (hio : ∀ p, ioFail p = none) :
    ∀ (t : FTree) (dest : FPath),
      copyTrace ioFail t dest = t.filesList.map (fun e => (dest ++ e.1, e.2)) ∧
      copyDirErr ioFail t dest = none
  | .mk es, dest => by
      simp only [copyTrace, copyDirErr, FTree.filesList]
      exact copyTraceE_no_fail ioFail hio es dest

/-- The term `copyTrace_no_fail` over an entry list. -/
theorem copyTraceE_no_fail (ioFail : FPath → Option Err) (hio : ∀ p, ioFail p = none) :
    ∀ (es : List Dirent) (dest : FPath),
      copyTraceE ioFail es dest = (Dirent.filesOf es).map (fun e => (dest ++ e.1, e.2)) ∧
      copyEntriesErr ioFail es dest = none
  | [], dest => ⟨rfl, rfl⟩
  | .file n c :: rest, dest => by
      have h := copyTraceE_no_fail ioFail hio rest dest
      refine ⟨?_, ?_⟩
      · simp only [copyTraceE, hio (dest ++ [n]), Dirent.filesOf, List.map_cons, h.1]
      · simp only [copyEntriesErr, hio (dest ++ [n]), h.2]
  | .dir n t :: rest, dest => by
      obtain ⟨h1, h2⟩ := copyTrace_no_fail ioFail hio t (dest ++ [n])
      obtain ⟨h3, h4⟩ := copyTraceE_no_fail ioFail hio rest dest
      simp only [copyTraceE, copyEntriesErr, h1, h2, h3, h4, Dirent.filesOf,
        List.map_append, List.map_map]
      refine ⟨?_, by trivial⟩
      congr 1
      refine List.map_congr_left ?_
      intro e _
      simp [List.append_assoc]
end

/-- C6: with backup enabled, the backup phase of `optimize` — which runs
strictly before any category phase (third conjunct of the first part: the
whole run is the category chain applied to the backup phase's resulting
state) — copies every file under the input root byte-identically to
`outputRoot/backup/` preserving structure (file paths of a real directory
tree are distinct, expressed by the `Nodup` hypothesis); and any failure
during the backup copy aborts the whole run before any optimization
starts (second part: the run's result is the failed backup phase's
result, no category phase is ever applied). -/
theorem claim_c6_backup_completeness (cfg : RunConfig) (ioFail : FPath → Option Err)
    (t : FTree) (outRoot : FPath) (s0 : RunState)
    (hback : cfg.backup = true) :
    ((∀ p, ioFail p = none) → (t.filesList.map Prod.fst).Nodup →
      (backupPhase cfg ioFail t outRoot
          { s0 with fs := s0.fs.ensureDir outRoot }).2 = none ∧
      (∀ pc ∈ t.filesList,
        ((backupPhase cfg ioFail t outRoot
            { s0 with fs := s0.fs.ensureDir outRoot }).1).fs.lookup
          (outRoot ++ "backup" :: pc.1) = some pc.2) ∧
      optimize cfg ioFail t outRoot s0
        = categoriesPhase cfg t outRoot
            ((backupPhase cfg ioFail t outRoot
              { s0 with fs := s0.fs.ensureDir outRoot }).1)) ∧
    (∀ (e : Err) (s' : RunState),
      backupPhase cfg ioFail t outRoot
          { s0 with fs := s0.fs.ensureDir outRoot } = (s', some e) →
      optimize cfg ioFail t outRoot s0 = (s', some e)) := by
  constructor
  · intro hio hnd
    have hfac := copyDirectory_factor ioFail t (outRoot ++ ["backup"])
      ((s0.fs.ensureDir outRoot).ensureDir (outRoot ++ ["backup"]))
    obtain ⟨htr, herr⟩ := copyTrace_no_fail ioFail hio t (outRoot ++ ["backup"])
    have hbp : backupPhase cfg ioFail t outRoot
        { s0 with fs := s0.fs.ensureDir outRoot }
        = ({ fs := (copyDirectory ioFail t (outRoot ++ ["backup"])
              ((s0.fs.ensureDir outRoot).ensureDir (outRoot ++ ["backup"]))).1,
             stats := s0.stats },
           (copyDirectory ioFail t (outRoot ++ ["backup"])
              ((s0.fs.ensureDir outRoot).ensureDir (outRoot ++ ["backup"]))).2) := by
      unfold backupPhase createBackup
      rw [hback]
      simp
    have herr2 : (backupPhase cfg ioFail t outRoot
        { s0 with fs := s0.fs.ensureDir outRoot }).2 = none := by
      rw [hbp]
      simp only
      rw [hfac.2, herr]
    refine ⟨herr2, ?_, ?_⟩
    · intro pc hpc
      rw [hbp]
      show FS.lookup _ (outRoot ++ "backup" :: pc.1) = some pc.2
      simp only [FS.lookup, hfac.1, htr]
      have hmem : (outRoot ++ "backup" :: pc.1, pc.2)
          ∈ (t.filesList.map fun e => (outRoot ++ ["backup"] ++ e.1, e.2)).reverse := by
        rw [List.mem_reverse]
        have : outRoot ++ "backup" :: pc.1 = outRoot ++ ["backup"] ++ pc.1 := by
          simp
        rw [this]
        have hx := List.mem_map_of_mem
          (fun e : FPath × Content => (outRoot ++ ["backup"] ++ e.1, e.2)) hpc
        simpa using hx
      have hndtr : ((t.filesList.map fun e =>
          (outRoot ++ ["backup"] ++ e.1, e.2)).reverse.map Prod.fst).Nodup := by
        rw [List.map_reverse, List.map_map]
        refine List.nodup_reverse.mpr ?_
        have hcomp : (Prod.fst ∘ fun e : FPath × Content =>
            (outRoot ++ ["backup"] ++ e.1, e.2))
            = (fun q : FPath => outRoot ++ ["backup"] ++ q) ∘ Prod.fst := rfl
        rw [hcomp, ← List.map_map]
        have hinj : Function.Injective fun q : FPath => outRoot ++ ["backup"] ++ q := by
          intro x y hxy
          simp only [List.append_assoc] at hxy
          exact List.append_cancel_left (List.append_cancel_left hxy)
        exact hnd.map hinj
      have hfind := find?_of_nodup _ (outRoot ++ "backup" :: pc.1) pc.2 hndtr hmem
      have htr2 : (t.filesList.map fun e => (outRoot ++ ["backup"] ++ e.1, e.2))
          = t.filesList.map fun e => (outRoot ++ ["backup"] ++ e.1, e.2) := rfl
      rw [show (t.filesList.map fun e => ((outRoot ++ ["backup"]) ++ e.1, e.2))
          = t.filesList.map fun e => (outRoot ++ ["backup"] ++ e.1, e.2) from rfl]
      rw [find?_append, hfind]
      rfl
    · unfold optimize
      show seqE (backupPhase cfg ioFail t outRoot) (categoriesPhase cfg t outRoot)
        { s0 with fs := s0.fs.ensureDir outRoot } = _
      exact seqE_of_none _ _ _ _ (by rw [hbp, ← herr2, hbp])
  · intro e s' hb
    unfold optimize
    show seqE (backupPhase cfg ioFail t outRoot) (categoriesPhase cfg t outRoot)
      { s0 with fs := s0.fs.ensureDir outRoot } = _
    rw [seqE_of_error _ _ _ e (by rw [hb])]
    exact hb

/-- The demo configuration with backup enabled. -/
def demoCfgB : RunConfig := { demoCfg with backup := true }

/-- An I/O oracle that makes the very first backup copy throw. -/
def demoIoBoom : FPath → Option Err :=
  fun p => if p == ["dist", "backup", "a.html"] then some "copyfail" else none

/-- Witness for C6: on the demo tree the nested file is present
byte-identically under `dist/backup/` when the copy succeeds, and an
injected copy failure aborts the run with that error. -/
theorem claim_c6_backup_completeness_witness :
    ((backupPhase demoCfgB demoIoFail demoTree ["dist"]
        { fs := demoState.fs.ensureDir ["dist"], stats := demoState.stats }).1).fs.lookup
      ["dist", "backup", "sub", "b.html"] = some "bb" ∧
    (optimize demoCfgB demoIoBoom demoTree ["dist"] demoState).2 = some "copyfail" := by
  have h := claim_c6_backup_completeness demoCfgB demoIoFail demoTree ["dist"]
    demoState rfl
  have h2 := claim_c6_backup_completeness demoCfgB demoIoBoom demoTree ["dist"]
    demoState rfl
  refine ⟨?_, ?_⟩
  · exact (h.1 (fun _ => rfl) (by decide)).2.1 (["sub", "b.html"], "bb") (by decide)
  · have hb : backupPhase demoCfgB demoIoBoom demoTree ["dist"]
        { fs := demoState.fs.ensureDir ["dist"], stats := demoState.stats }
        = ((backupPhase demoCfgB demoIoBoom demoTree ["dist"]
            { fs := demoState.fs.ensureDir ["dist"], stats := demoState.stats }).1,
           some "copyfail") := rfl
    rw [h2.2 "copyfail" _ hb]

/-! ## Claim C8: best-effort WebP derivation -/

/-- The term `takeWhile` stops exactly at the first failing element. -/
theorem takeWhile_append_stop {α : Type} (p : α → Bool) (l1 : List α) (x : α)
    (l2 : List α) (h1 : ∀ a ∈ l1, p a = true) (hx : p x = false) :
    (l1 ++ x :: l2).takeWhile p = l1 := by
  induction l1 with
  | nil => simp [List.takeWhile_cons, hx]
  | cons a tl ih =>
      have ha := h1 a (List.mem_cons_self a tl)
      simp only [List.cons_append, List.takeWhile_cons, ha, if_true]
      rw [ih fun b hb => h1 b (List.mem_cons_of_mem _ hb)]

/-- The regex `\.[^.]+$` replacement on a basename of shape
`base.ext` (with a dot-free extension) yields `base.webp`. -/
theorem replaceExtWebp_eq (base ext : String) (hext : '.' ∉ ext.data) :
    replaceExtWebp (base ++ "." ++ ext) = base ++ ".webp" := by
  have hdata : (base ++ "." ++ ext).data = base.data ++ '.' :: ext.data := by
    simp [String.data_append]
  have hrev : (base ++ "." ++ ext).data.reverse
      = ext.data.reverse ++ '.' :: base.data.reverse := by
    rw [hdata]
    simp
  have htake : (ext.data.reverse ++ '.' :: base.data.reverse).takeWhile
      (fun c => !(c == '.')) = ext.data.reverse := by
    refine takeWhile_append_stop _ _ _ _ ?_ (by simp)
    intro a ha
    rw [List.mem_reverse] at ha
    have : a ≠ '.' := fun hc => hext (hc ▸ ha)
    simp [this]
  have hlen : ext.data.reverse.length + 1
      < (ext.data.reverse ++ '.' :: base.data.reverse).length + 1 := by
    simp
  have hne : (ext.data.reverse.length
      == (ext.data.reverse ++ '.' :: base.data.reverse).length) = false := by
    simp
  have hdrop : (ext.data.reverse ++ '.' :: base.data.reverse).drop
      (ext.data.reverse.length + 1) = base.data.reverse := by
    have hsplit2 : ext.data.reverse ++ '.' :: base.data.reverse
        = (ext.data.reverse ++ ['.']) ++ base.data.reverse := by simp
    rw [hsplit2]
    have hlen2 : (ext.data.reverse ++ ['.']).length = ext.data.reverse.length + 1 := by
      simp
    rw [← hlen2, List.drop_left]
  unfold replaceExtWebp
  rw [hrev]
  simp only [htake, hne, Bool.false_eq_true, if_false, hdrop, List.reverse_reverse]

/-- The derived path of `generateWebP`: same directory, same base name,
`.webp` extension. -/
theorem webpSibling_eq (dirs : FPath) (base ext : String) (hext : '.' ∉ ext.data) :
    webpSibling (dirs ++ [base ++ "." ++ ext]) = dirs ++ [base ++ ".webp"] := by
  unfold webpSibling
  have hne : (dirs ++ [base ++ "." ++ ext]).isEmpty = false := by
    cases dirs <;> rfl
  rw [hne]
  simp only [Bool.false_eq_true, if_false]
  rw [List.dropLast_concat, List.getLastD_concat, replaceExtWebp_eq base ext hext]

/-- A successful primary conversion never lets the images loop abort,
whatever the webp adapter does. -/
theorem imageOptimize_ok (imgA webpA : FPath → Except Err Content) (gw : Bool)
    (f outputPath : FPath) (fs : FS) (c : Content)
    (hc : imageDispatch imgA f = .ok c) :
    ∃ fs2 ws, imageOptimize imgA webpA gw f outputPath fs = ((fs2, ws), none) := by
  unfold imageOptimize
  rw [hc]
  by_cases hcond2 : (gw && !(strContains (fileExt f) "webp")) = true
  · cases hw : webpA f with
    | error e =>
        refine ⟨(fs.ensureDir outputPath.dropLast).writeFile outputPath c,
          ["WebP转换失败: " ++ e], ?_⟩
        simp only [hcond2, if_true, hw]
    | ok w =>
        refine ⟨((fs.ensureDir outputPath.dropLast).writeFile outputPath c).writeFile
          (webpSibling outputPath) w, [], ?_⟩
        simp only [hcond2, if_true, hw]
  · refine ⟨(fs.ensureDir outputPath.dropLast).writeFile outputPath c, [], ?_⟩
    simp only [Bool.not_eq_true] at hcond2
    simp only [hcond2, Bool.false_eq_true, if_false]

/-- C8: when WebP generation is enabled and the input image is not already
WebP, a derived output with the same base name and a `.webp` extension is
produced alongside the primary optimized file (first and third
conjuncts); a failure while producing it is logged as a warning and does
not fail the primary file's processing (second conjunct: the state is
exactly the primary write plus a warning, with no error) nor abort the
run (fourth conjunct: the images loop finishes error-free whenever the
primary conversions succeed, for an arbitrary webp adapter). -/
theorem claim_c8_webp_best_effort (imgA webpA : FPath → Except Err Content)
    (f outputPath : FPath) (fs : FS) (buf : Content)
    (hsupp : supportedImageExts.contains (fileExt f) = true)
    (hnw : strContains (fileExt f) "webp" = false)
    (hok : imgA f = .ok buf) :
    (∀ w, webpA f = .ok w →
      imageOptimize imgA webpA true f outputPath fs
        = ((((fs.ensureDir outputPath.dropLast).writeFile outputPath buf).writeFile
            (webpSibling outputPath) w, []), none) ∧
      (((imageOptimize imgA webpA true f outputPath fs).1).1).lookup
        (webpSibling outputPath) = some w) ∧
    (∀ e, webpA f = .error e →
      imageOptimize imgA webpA true f outputPath fs
        = (((fs.ensureDir outputPath.dropLast).writeFile outputPath buf,
            ["WebP转换失败: " ++ e]), none) ∧
      (((imageOptimize imgA webpA true f outputPath fs).1).1).lookup outputPath
        = some buf ∧
      (imageOptimize imgA webpA true f outputPath fs).2 = none) ∧
    (∀ (dirs : FPath) (base ext : String), '.' ∉ ext.data →
      webpSibling (dirs ++ [base ++ "." ++ ext]) = dirs ++ [base ++ ".webp"]) ∧
    (∀ (t : FTree) (outRoot : FPath) (files : List FPath) (s : RunState),
      (∀ f2 ∈ files, (imageDispatch imgA f2).isOk = true) →
      (processImagesFiles t outRoot imgA webpA true files s).2 = none) := by
  have hdisp : imageDispatch imgA f = .ok buf := by
    unfold imageDispatch
    rw [hsupp]
    simpa using hok
  have hcond : (true && !(strContains (fileExt f) "webp")) = true := by
    rw [hnw]; rfl
  refine ⟨?_, ?_, fun dirs base ext hext => webpSibling_eq dirs base ext hext, ?_⟩
  · intro w hw
    have heq : imageOptimize imgA webpA true f outputPath fs
        = ((((fs.ensureDir outputPath.dropLast).writeFile outputPath buf).writeFile
            (webpSibling outputPath) w, []), none) := by
      unfold imageOptimize
      rw [hdisp]
      simp only [hcond, if_true, hw]
    refine ⟨heq, ?_⟩
    rw [heq]
    show FS.lookup _ (webpSibling outputPath) = some w
    simp [FS.lookup, FS.writeFile, List.find?_cons_of_pos]
  · intro e he
    have heq : imageOptimize imgA webpA true f outputPath fs
        = (((fs.ensureDir outputPath.dropLast).writeFile outputPath buf,
            ["WebP转换失败: " ++ e]), none) := by
      unfold imageOptimize
      rw [hdisp]
      simp only [hcond, if_true, he]
    refine ⟨heq, ?_, by rw [heq]⟩
    rw [heq]
    show FS.lookup _ outputPath = some buf
    simp [FS.lookup, FS.writeFile, List.find?_cons_of_pos]
  · intro t outRoot files s hall
    induction files generalizing s with
    | nil => rfl
    | cons f2 rest ih =>
        obtain ⟨c, hc⟩ : ∃ c, imageDispatch imgA f2 = .ok c := by
          have hg := hall f2 (List.mem_cons_self f2 rest)
          cases hag : imageDispatch imgA f2
          · rw [hag] at hg; cases hg
          · exact ⟨_, rfl⟩
        obtain ⟨fs2, ws, heq⟩ := imageOptimize_ok imgA webpA true f2
          (outRoot ++ f2) (s.fs.ensureDir (outRoot ++ f2).dropLast) c hc
        simp only [processImagesFiles, heq]
        exact ih _ fun f3 hf3 => hall f3 (List.mem_cons_of_mem _ hf3)

/-- A primary image compressor producing a fixed buffer. -/
def demoImg : FPath → Except Err Content := fun _ => .ok "JPG"

/-- A webp converter that succeeds. -/
def demoWebp : FPath → Except Err Content := fun _ => .ok "WEBP"

/-- A webp converter that throws. -/
def demoWebpFail : FPath → Except Err Content := fun _ => .error "nope"

/-- Witness for C8 on a concrete jpeg: the derived `.webp` sibling exists
on webp success, and on webp failure the primary output is intact and no
error is raised. -/
theorem claim_c8_webp_best_effort_witness :
    (((imageOptimize demoImg demoWebp true ["img", "photo.jpg"]
        ["dist", "img", "photo.jpg"] ⟨[], []⟩).1).1).lookup
      ["dist", "img", "photo.webp"] = some "WEBP" ∧
    (((imageOptimize demoImg demoWebpFail true ["img", "photo.jpg"]
        ["dist", "img", "photo.jpg"] ⟨[], []⟩).1).1).lookup
      ["dist", "img", "photo.jpg"] = some "JPG" ∧
    (imageOptimize demoImg demoWebpFail true ["img", "photo.jpg"]
        ["dist", "img", "photo.jpg"] ⟨[], []⟩).2 = none := by
  have h1 := claim_c8_webp_best_effort demoImg demoWebp ["img", "photo.jpg"]
    ["dist", "img", "photo.jpg"] ⟨[], []⟩ "JPG" (by decide) (by decide) rfl
  have h2 := claim_c8_webp_best_effort demoImg demoWebpFail ["img", "photo.jpg"]
    ["dist", "img", "photo.jpg"] ⟨[], []⟩ "JPG" (by decide) (by decide) rfl
  refine ⟨?_, (h2.2.1 "nope" rfl).2.1, (h2.2.1 "nope" rfl).2.2⟩
  have hl := (h1.1 "WEBP" rfl).2
  have hsib : webpSibling ["dist", "img", "photo.jpg"]
      = ["dist", "img", "photo.webp"] := by decide
  rw [hsib] at hl
  exact hl

/-! ## Claim C7: idempotence of the whole pipeline -/

/-- The chronological write sequence of the images loop: per file the
primary output and, when enabled and applicable and successful, the
derived WebP output; cut off at the first primary-conversion failure. -/
def imagesTrace (outRoot : FPath) (imgA webpA : FPath → Except Err Content)
    (gw : Bool) : List FPath → List (FPath × Content)
  | [] => []
  | f :: rest =>
      match imageDispatch imgA f with
      | .error _ => []
      | .ok buf =>
          ((outRoot ++ f, buf) ::
            (if gw && !(strContains (fileExt f) "webp") then
              match webpA f with
              | .ok w => [(webpSibling (outRoot ++ f), w)]
              | .error _ => []
            else [])) ++ imagesTrace outRoot imgA webpA gw rest

/-- The error the images loop propagates: the first wrapped
primary-conversion failure, if any. -/
def imagesErr (imgA : FPath → Except Err Content) : List FPath → Option Err
  | [] => none
  | f :: rest =>
      match imageDispatch imgA f with
      | .error e => some ("图片优化失败: " ++ e)
      | .ok _ => imagesErr imgA rest

/-- The images loop writes exactly its trace and propagates exactly its
first error, independently of the initial state. -/
theorem processImagesFiles_factor (t : FTree) (outRoot : FPath)
    (imgA webpA : FPath → Except Err Content) (gw : Bool) :
    ∀ (files : List FPath) (s : RunState),
      ((processImagesFiles t outRoot imgA webpA gw files s).1).fs.files
          = (imagesTrace outRoot imgA webpA gw files).reverse ++ s.fs.files ∧
      (processImagesFiles t outRoot imgA webpA gw files s).2
          = imagesErr imgA files := by
  intro files
  induction files with
  | nil => intro s; exact ⟨rfl, rfl⟩
  | cons f rest ih =>
      intro s
      simp only [processImagesFiles, imagesTrace, imagesErr]
      cases hd : imageDispatch imgA f with
      | error e =>
          have heq : imageOptimize imgA webpA gw f (outRoot ++ f)
              (s.fs.ensureDir (outRoot ++ f).dropLast)
              = (((s.fs.ensureDir (outRoot ++ f).dropLast).ensureDir
                  (outRoot ++ f).dropLast, []), some ("图片优化失败: " ++ e)) := by
            unfold imageOptimize
            rw [hd]
          simp only [heq]
          exact ⟨by simp [FS.files_ensureDir], by trivial⟩
      | ok buf =>
          by_cases hcond : (gw && !(strContains (fileExt f) "webp")) = true
          · cases hw : webpA f with
            | ok w =>
                have heq : imageOptimize imgA webpA gw f (outRoot ++ f)
                    (s.fs.ensureDir (outRoot ++ f).dropLast)
                    = (((((s.fs.ensureDir (outRoot ++ f).dropLast).ensureDir
                          (outRoot ++ f).dropLast).writeFile (outRoot ++ f) buf).writeFile
                        (webpSibling (outRoot ++ f)) w, []), none) := by
                  unfold imageOptimize
                  rw [hd]
                  simp only [hcond, if_true, hw]
                simp only [heq, hcond, if_true, hw]
                obtain ⟨h1, h2⟩ := ih
                  { fs := ((((s.fs.ensureDir (outRoot ++ f).dropLast).ensureDir
                        (outRoot ++ f).dropLast).writeFile (outRoot ++ f) buf).writeFile
                      (webpSibling (outRoot ++ f)) w),
                    stats := updateStats s.stats (getFileSizeTree t f)
                      (getFileSizeFS (((((s.fs.ensureDir (outRoot ++ f).dropLast).ensureDir
                          (outRoot ++ f).dropLast).writeFile (outRoot ++ f) buf).writeFile
                        (webpSibling (outRoot ++ f)) w)) (outRoot ++ f)) }
                refine ⟨?_, h2⟩
                rw [h1]
                simp [FS.writeFile, FS.files_ensureDir, List.reverse_append,
                  List.append_assoc]
            | error e =>
                have heq : imageOptimize imgA webpA gw f (outRoot ++ f)
                    (s.fs.ensureDir (outRoot ++ f).dropLast)
                    = ((((s.fs.ensureDir (outRoot ++ f).dropLast).ensureDir
                          (outRoot ++ f).dropLast).writeFile (outRoot ++ f) buf,
                        ["WebP转换失败: " ++ e]), none) := by
                  unfold imageOptimize
                  rw [hd]
                  simp only [hcond, if_true, hw]
                simp only [heq, hcond, if_true, hw]
                obtain ⟨h1, h2⟩ := ih
                  { fs := (((s.fs.ensureDir (outRoot ++ f).dropLast).ensureDir
                        (outRoot ++ f).dropLast).writeFile (outRoot ++ f) buf),
                    stats := updateStats s.stats (getFileSizeTree t f)
                      (getFileSizeFS ((((s.fs.ensureDir (outRoot ++ f).dropLast).ensureDir
                          (outRoot ++ f).dropLast).writeFile (outRoot ++ f) buf))
                        (outRoot ++ f)) }
                refine ⟨?_, h2⟩
                rw [h1]
                simp [FS.writeFile, FS.files_ensureDir, List.reverse_append,
                  List.append_assoc]
          · have hcf : (gw && !(strContains (fileExt f) "webp")) = false := by
              simpa using hcond
            have heq : imageOptimize imgA webpA gw f (outRoot ++ f)
                (s.fs.ensureDir (outRoot ++ f).dropLast)
                = ((((s.fs.ensureDir (outRoot ++ f).dropLast).ensureDir
                      (outRoot ++ f).dropLast).writeFile (outRoot ++ f) buf, []), none) := by
              unfold imageOptimize
              rw [hd]
              simp only [hcf, Bool.false_eq_true, if_false]
            simp only [heq, hcf, Bool.false_eq_true, if_false]
            obtain ⟨h1, h2⟩ := ih
              { fs := (((s.fs.ensureDir (outRoot ++ f).dropLast).ensureDir
                    (outRoot ++ f).dropLast).writeFile (outRoot ++ f) buf),
                stats := updateStats s.stats (getFileSizeTree t f)
                  (getFileSizeFS ((((s.fs.ensureDir (outRoot ++ f).dropLast).ensureDir
                      (outRoot ++ f).dropLast).writeFile (outRoot ++ f) buf))
                    (outRoot ++ f)) }
            refine ⟨?_, h2⟩
            rw [h1]
            simp [FS.writeFile, FS.files_ensureDir, List.reverse_append,
              List.append_assoc]

/-- A pipeline phase "factors" when its file writes and its outcome are
fixed in advance — independent of the filesystem it is applied to. -/
def PhaseFactor (phase : RunState → RunState × Option Err)
    (w : List (FPath × Content)) (e : Option Err) : Prop :=
  ∀ s : RunState,
    ((phase s).1).fs.files = w.reverse ++ s.fs.files ∧ (phase s).2 = e

/-- Factoring composes across `seqE`: the writes concatenate, with the
second phase dropped after a first-phase error. -/
theorem seqE_factor (f g : RunState → RunState × Option Err)
    (wf wg : List (FPath × Content)) (ef eg : Option Err)
    (hf : PhaseFactor f wf ef) (hg : PhaseFactor g wg eg) :
    PhaseFactor (seqE f g)
      (wf ++ match ef with | none => wg | some _ => [])
      (match ef with | none => eg | some e => some e) := by
  intro s
  cases ef with
  | none =>
      have h1 := hf s
      have hfs : f s = ((f s).1, none) := by
        rw [← h1.2]
      rw [seqE_of_none f g s (f s).1 hfs]
      have h2 := hg (f s).1
      constructor
      · rw [h2.1, h1.1]
        simp [List.reverse_append, List.append_assoc]
      · exact h2.2
  | some e =>
      rw [seqE_of_error f g s e (hf s).2]
      refine ⟨?_, (hf s).2⟩
      rw [(hf s).1]
      simp

/-- The optional category phases factor. -/
theorem catPhase_factor (enabled : Bool) (run : RunState → RunState × Option Err)
    (w : List (FPath × Content)) (e : Option Err) (h : PhaseFactor run w e) :
    PhaseFactor (catPhase enabled run)
      (if enabled then w else []) (if enabled then e else none) := by
  intro s
  unfold catPhase
  cases enabled
  · simp
  · simp only [if_true]
    exact h s

/-- The backup phase factors. -/
theorem backupPhase_factor (cfg : RunConfig) (ioFail : FPath → Option Err)
    (t : FTree) (outRoot : FPath) :
    PhaseFactor (backupPhase cfg ioFail t outRoot)
      (if cfg.backup then copyTrace ioFail t (outRoot ++ ["backup"]) else [])
      (if cfg.backup then copyDirErr ioFail t (outRoot ++ ["backup"]) else none) := by
  intro s
  unfold backupPhase createBackup
  cases hb : cfg.backup
  · simp
  · simp only [if_true]
    have h := copyDirectory_factor ioFail t (outRoot ++ ["backup"])
      (s.fs.ensureDir (outRoot ++ ["backup"]))
    cases hcd : copyDirectory ioFail t (outRoot ++ ["backup"])
        (s.fs.ensureDir (outRoot ++ ["backup"])) with
    | mk fs' r =>
        rw [hcd] at h
        refine ⟨?_, h.2⟩
        have h1 := h.1
        simp only [FS.files_ensureDir] at h1
        exact h1

/-- The entire `optimize` pipeline factors: there is one write sequence
and one outcome, fixed by the configuration, the adapters, the error
oracle and the input tree, that every run performs regardless of the
output filesystem it starts from. -/
theorem optimize_factor (cfg : RunConfig) (ioFail : FPath → Option Err)
    (t : FTree) (outRoot : FPath) :
    ∃ (w : List (FPath × Content)) (e : Option Err), ∀ s0 : RunState,
      ((optimize cfg ioFail t outRoot s0).1).fs.files = w.reverse ++ s0.fs.files ∧
      (optimize cfg ioFail t outRoot s0).2 = e := by
  have h4 := catPhase_factor cfg.images
    (processImagesFiles t outRoot cfg.imgAdapter cfg.webpAdapter cfg.generateWebP
      (globModel t imageExts)) _ _
    (processImagesFiles_factor t outRoot cfg.imgAdapter cfg.webpAdapter cfg.generateWebP
      (globModel t imageExts))
  have h3 := catPhase_factor cfg.js
    (processFiles t outRoot cfg.jsAdapter (globModel t jsExts)) _ _
    (processFiles_factor t outRoot cfg.jsAdapter (globModel t jsExts))
  have h2 := catPhase_factor cfg.css
    (processFiles t outRoot cfg.cssAdapter (globModel t cssExts)) _ _
    (processFiles_factor t outRoot cfg.cssAdapter (globModel t cssExts))
  have h1 := catPhase_factor cfg.html
    (processFiles t outRoot cfg.htmlAdapter (globModel t htmlExts)) _ _
    (processFiles_factor t outRoot cfg.htmlAdapter (globModel t htmlExts))
  have hb := backupPhase_factor cfg ioFail t outRoot
  have h34 := seqE_factor _ _ _ _ _ _ h3 h4
  have h234 := seqE_factor _ _ _ _ _ _ h2 h34
  have h1234 := seqE_factor _ _ _ _ _ _ h1 h234
  obtain ⟨W, E, hall⟩ : ∃ W E, PhaseFactor
      (seqE (backupPhase cfg ioFail t outRoot)
        (seqE (catPhase cfg.html (processFiles t outRoot cfg.htmlAdapter (globModel t htmlExts)))
          (seqE (catPhase cfg.css (processFiles t outRoot cfg.cssAdapter (globModel t cssExts)))
            (seqE (catPhase cfg.js (processFiles t outRoot cfg.jsAdapter (globModel t jsExts)))
              (catPhase cfg.images
                (processImagesFiles t outRoot cfg.imgAdapter cfg.webpAdapter
                  cfg.generateWebP (globModel t imageExts))))))) W E :=
    ⟨_, _, seqE_factor _ _ _ _ _ _ hb h1234⟩
  refine ⟨W, E, fun s0 => ?_⟩
  have h := hall { s0 with fs := s0.fs.ensureDir outRoot }
  constructor
  · have h5 := h.1
    simp only [FS.files_ensureDir] at h5
    exact h5
  · exact h.2

/-- C7: running the pipeline twice against the unmodified input tree with
the same configuration produces byte-identical output files — the second
run's output filesystem agrees with the first run's at every path.  The
compression adapters are Lean functions, hence deterministic, matching
the claim's assumption. -/
theorem claim_c7_idempotent (cfg : RunConfig) (ioFail : FPath → Option Err)
    (t : FTree) (outRoot : FPath) (s0 : RunState) (stats1 : RunStats)
    (p : FPath) :
    (((optimize cfg ioFail t outRoot
        { fs := ((optimize cfg ioFail t outRoot s0).1).fs, stats := stats1 }).1).fs).lookup p
      = (((optimize cfg ioFail t outRoot s0).1).fs).lookup p := by
  obtain ⟨w, e, hw⟩ := optimize_factor cfg ioFail t outRoot
  have h1 := (hw s0).1
  have h2 := (hw { fs := ((optimize cfg ioFail t outRoot s0).1).fs, stats := stats1 }).1
  simp only [FS.lookup, h2, h1]
  simp only [find?_append]
  cases hcase : w.reverse.find? fun x => x.1 == p with
  | some y => simp [Option.orElse, hcase]
  | none => simp [Option.orElse, hcase]

/-! ## Claim C2: strict fail-fast, for every category -/

/-- In a list where the key `p` pins down a unique entry, `find?` returns
that entry. -/
theorem find?_eq_of_unique (L : List (FPath × Content)) (p : FPath) (c : Content)
    (hmem : (p, c) ∈ L) (huni : ∀ x ∈ L, x.1 = p → x = (p, c)) :
    (L.find? fun x => x.1 == p) = some (p, c) := by
  induction L with
  | nil => cases hmem
  | cons hd tl ih =>
      by_cases hh : hd.1 = p
      · have hx : hd = (p, c) := huni hd (List.mem_cons_self hd tl) hh
        subst hx
        refine List.find?_cons_of_pos tl ?_
        show (((p, c) : FPath × Content).1 == p) = true
        simp
      · have hb : ¬((fun x : FPath × Content => x.1 == p) hd = true) := by simp [hh]
        rw [List.find?_cons_of_neg tl hb]
        have hmem2 : (p, c) ∈ tl := by
          rcases List.mem_cons.mp hmem with h1 | h1
          · exfalso; apply hh; rw [← h1]
          · exact h1
        exact ih hmem2 fun x hx hxp => huni x (List.mem_cons_of_mem _ hx) hxp

/-- What the state of a text-category loop whose N-th file fails looks
like from the outside, for an arbitrary adapter and start state: the
error is the N-th file's, the first `N-1` mirrored outputs are present,
the later files' outputs are absent (when not present before), and every
file of the start state not shadowed by one of the loop's own writes —
in particular every earlier category's output — is untouched. -/
theorem processFiles_fail_conclusions (t : FTree) (outRoot : FPath)
    (a : FPath → Except Err Content) (pre : List FPath) (bad : FPath)
    (post : List FPath) (e : Err) (s : RunState)
    (hok : ∀ f ∈ pre, (a f).isOk = true)
    (hbad : a bad = .error e)
    (hnd : (pre ++ bad :: post).Nodup) :
    (processFiles t outRoot a (pre ++ bad :: post) s).2 = some e ∧
    (∀ f ∈ pre, ∀ c, a f = .ok c →
      ((processFiles t outRoot a (pre ++ bad :: post) s).1).fs.lookup (outRoot ++ f)
        = some c) ∧
    (∀ f ∈ post, s.fs.lookup (outRoot ++ f) = none →
      ((processFiles t outRoot a (pre ++ bad :: post) s).1).fs.lookup (outRoot ++ f)
        = none) ∧
    (∀ (p : FPath) (c0 : Content), s.fs.lookup p = some c0 →
      (∀ f ∈ pre, outRoot ++ f ≠ p) →
      ((processFiles t outRoot a (pre ++ bad :: post) s).1).fs.lookup p = some c0) := by
  have hfac := processFiles_factor t outRoot a (pre ++ bad :: post) s
  obtain ⟨htr, herr0⟩ := filesTrace_fail outRoot a pre bad post e hok hbad
  have hfiles : ((processFiles t outRoot a (pre ++ bad :: post) s).1).fs.files
      = (pre.map fun f => (outRoot ++ f, okD (a f))).reverse ++ s.fs.files := by
    rw [hfac.1, htr]
  refine ⟨by rw [hfac.2, herr0], ?_, ?_, ?_⟩
  · intro f hf c hc
    have hmem : (outRoot ++ f, c)
        ∈ (pre.map fun f2 => (outRoot ++ f2, okD (a f2))).reverse := by
      rw [List.mem_reverse]
      have hcd : okD (a f) = c := by rw [hc]; rfl
      rw [← hcd]
      exact List.mem_map_of_mem _ hf
    have hndtr : ((pre.map fun f2 =>
        (outRoot ++ f2, okD (a f2))).reverse.map Prod.fst).Nodup := by
      rw [List.map_reverse, List.map_map]
      refine List.nodup_reverse.mpr ?_
      have hinj : Function.Injective fun f2 : FPath => outRoot ++ f2 :=
        fun x y hxy => List.append_cancel_left hxy
      exact (hnd.of_append_left).map hinj
    have hfind := find?_of_nodup _ (outRoot ++ f) c hndtr hmem
    show FS.lookup _ (outRoot ++ f) = some c
    simp only [FS.lookup, hfiles]
    rw [find?_append, hfind]
    rfl
  · intro f hf hfresh
    have hdisj : List.Disjoint pre (bad :: post) := List.disjoint_of_nodup_append hnd
    have hfp : f ∉ pre := fun hc => hdisj hc (List.mem_cons_of_mem _ hf)
    have hnone : ((pre.map fun f2 => (outRoot ++ f2, okD (a f2))).reverse.find?
        fun x => x.1 == outRoot ++ f) = none := by
      refine List.find?_eq_none.mpr ?_
      intro x hx
      rw [List.mem_reverse] at hx
      obtain ⟨f2, hf2, rfl⟩ := List.mem_map.mp hx
      simp only [beq_iff_eq]
      intro hc
      exact hfp ((List.append_cancel_left hc) ▸ hf2)
    show FS.lookup _ (outRoot ++ f) = none
    simp only [FS.lookup, hfiles]
    rw [find?_append, hnone]
    exact hfresh
  · intro p c0 hp hne
    have hnone : ((pre.map fun f2 => (outRoot ++ f2, okD (a f2))).reverse.find?
        fun x => x.1 == p) = none := by
      refine List.find?_eq_none.mpr ?_
      intro x hx
      rw [List.mem_reverse] at hx
      obtain ⟨f2, hf2, rfl⟩ := List.mem_map.mp hx
      simp only [beq_iff_eq]
      exact hne f2 hf2
    show FS.lookup _ p = some c0
    simp only [FS.lookup, hfiles]
    rw [find?_append, hnone]
    exact hp

/-- The images loop's propagated error when the N-th file's primary
conversion fails. -/
theorem imagesErr_fail (imgA : FPath → Except Err Content) :
    ∀ (pre : List FPath) (bad : FPath) (post : List FPath) (e : Err),
    (∀ f ∈ pre, (imageDispatch imgA f).isOk = true) →
    imageDispatch imgA bad = .error e →
    imagesErr imgA (pre ++ bad :: post) = some ("图片优化失败: " ++ e) := by
  intro pre
  induction pre with
  | nil =>
      intro bad post e _ hbad
      simp [imagesErr, hbad]
  | cons g rest ih =>
      intro bad post e hok hbad
      obtain ⟨cg, hcg⟩ : ∃ cg, imageDispatch imgA g = .ok cg := by
        have hg := hok g (List.mem_cons_self g rest)
        cases hag : imageDispatch imgA g
        · rw [hag] at hg; cases hg
        · exact ⟨_, rfl⟩
      simp only [List.cons_append, imagesErr, hcg, List.append_eq]
      exact ih bad post e (fun f hf => hok f (List.mem_cons_of_mem _ hf)) hbad

/-- Every file before the failing one has its primary write in the
images loop's trace. -/
theorem imagesTrace_fail_mem (outRoot : FPath)
    (imgA webpA : FPath → Except Err Content) (gw : Bool) :
    ∀ (pre : List FPath) (bad : FPath) (post : List FPath),
    (∀ f ∈ pre, (imageDispatch imgA f).isOk = true) →
    ∀ f ∈ pre, ∀ c, imageDispatch imgA f = .ok c →
    (outRoot ++ f, c) ∈ imagesTrace outRoot imgA webpA gw (pre ++ bad :: post) := by
  intro pre
  induction pre with
  | nil => intro bad post _ f hf; cases hf
  | cons g rest ih =>
      intro bad post hok f hf c hc
      obtain ⟨cg, hcg⟩ : ∃ cg, imageDispatch imgA g = .ok cg := by
        have hg := hok g (List.mem_cons_self g rest)
        cases hag : imageDispatch imgA g
        · rw [hag] at hg; cases hg
        · exact ⟨_, rfl⟩
      simp only [List.cons_append, imagesTrace, hcg, List.append_eq]
      rcases List.mem_cons.mp hf with rfl | hf2
      · have hcc : c = cg := by
          rw [hcg] at hc
          exact (Except.ok.injEq _ _).mp hc.symm
        subst hcc
        exact List.mem_cons_self _ _
      · exact List.mem_cons_of_mem _ (List.mem_append.mpr
          (Or.inr (ih bad post (fun f2 hf3 => hok f2 (List.mem_cons_of_mem _ hf3)) f hf2 c hc)))

/-- Every entry of the failing images loop's trace is either the primary
output of some earlier file or the derived WebP sibling of one. -/
theorem imagesTrace_fail_char (outRoot : FPath)
    (imgA webpA : FPath → Except Err Content) (gw : Bool) :
    ∀ (pre : List FPath) (bad : FPath) (post : List FPath) (e : Err),
    (∀ f ∈ pre, (imageDispatch imgA f).isOk = true) →
    imageDispatch imgA bad = .error e →
    ∀ x ∈ imagesTrace outRoot imgA webpA gw (pre ++ bad :: post),
      ∃ f2 ∈ pre, x = (outRoot ++ f2, okD (imageDispatch imgA f2))
        ∨ x.1 = webpSibling (outRoot ++ f2) := by
  intro pre
  induction pre with
  | nil =>
      intro bad post e _ hbad x hx
      simp [imagesTrace, hbad] at hx
  | cons g rest ih =>
      intro bad post e hok hbad x hx
      obtain ⟨cg, hcg⟩ : ∃ cg, imageDispatch imgA g = .ok cg := by
        have hg := hok g (List.mem_cons_self g rest)
        cases hag : imageDispatch imgA g
        · rw [hag] at hg; cases hg
        · exact ⟨_, rfl⟩
      simp only [List.cons_append, imagesTrace, hcg, List.append_eq] at hx
      rcases List.mem_cons.mp hx with rfl | h1
      · refine ⟨g, List.mem_cons_self g rest, Or.inl ?_⟩
        rw [hcg]
        rfl
      · rcases List.mem_append.mp h1 with h2 | h2
        · refine ⟨g, List.mem_cons_self g rest, Or.inr ?_⟩
          by_cases hcond : (gw && !(strContains (fileExt g) "webp")) = true
          · rw [if_pos hcond] at h2
            cases hw : webpA g with
            | ok w =>
                rw [hw] at h2
                rw [List.mem_singleton.mp h2]
            | error e2 => rw [hw] at h2; cases h2
          · rw [if_neg hcond] at h2; cases h2
        · obtain ⟨f2, hf2, hor⟩ := ih bad post e
            (fun f3 hf3 => hok f3 (List.mem_cons_of_mem _ hf3)) hbad x h2
          exact ⟨f2, List.mem_cons_of_mem _ hf2, hor⟩

/-- `processFiles_fail_conclusions` for the images loop: the same
fail-fast shape, with the extra hypothesis — true of the actual path
shapes, since a derived sibling always ends in `.webp` — that no derived
WebP sibling collides with a category file's own output path. -/
theorem processImagesFiles_fail_conclusions (t : FTree) (outRoot : FPath)
    (imgA webpA : FPath → Except Err Content) (gw : Bool)
    (pre : List FPath) (bad : FPath) (post : List FPath) (e : Err) (s : RunState)
    (hok : ∀ f ∈ pre, (imageDispatch imgA f).isOk = true)
    (hbad : imageDispatch imgA bad = .error e)
    (hnd : (pre ++ bad :: post).Nodup)
    (hnosib : ∀ f2 ∈ pre, ∀ q ∈ pre ++ bad :: post,
      webpSibling (outRoot ++ f2) ≠ outRoot ++ q) :
    (processImagesFiles t outRoot imgA webpA gw (pre ++ bad :: post) s).2
      = some ("图片优化失败: " ++ e) ∧
    (∀ f ∈ pre, ∀ c, imageDispatch imgA f = .ok c →
      ((processImagesFiles t outRoot imgA webpA gw (pre ++ bad :: post) s).1).fs.lookup
        (outRoot ++ f) = some c) ∧
    (∀ f ∈ post, s.fs.lookup (outRoot ++ f) = none →
      ((processImagesFiles t outRoot imgA webpA gw (pre ++ bad :: post) s).1).fs.lookup
        (outRoot ++ f) = none) ∧
    (∀ (p : FPath) (c0 : Content), s.fs.lookup p = some c0 →
      (∀ f ∈ pre, outRoot ++ f ≠ p) →
      (∀ f2 ∈ pre, webpSibling (outRoot ++ f2) ≠ p) →
      ((processImagesFiles t outRoot imgA webpA gw (pre ++ bad :: post) s).1).fs.lookup
        p = some c0) := by
  have hfac := processImagesFiles_factor t outRoot imgA webpA gw (pre ++ bad :: post) s
  have hchar := imagesTrace_fail_char outRoot imgA webpA gw pre bad post e hok hbad
  refine ⟨by rw [hfac.2]; exact imagesErr_fail imgA pre bad post e hok hbad, ?_, ?_, ?_⟩
  · intro f hf c hc
    have hmem : (outRoot ++ f, c)
        ∈ (imagesTrace outRoot imgA webpA gw (pre ++ bad :: post)).reverse := by
      rw [List.mem_reverse]
      exact imagesTrace_fail_mem outRoot imgA webpA gw pre bad post hok f hf c hc
    have huni : ∀ x ∈ (imagesTrace outRoot imgA webpA gw (pre ++ bad :: post)).reverse,
        x.1 = outRoot ++ f → x = (outRoot ++ f, c) := by
      intro x hx hxp
      rw [List.mem_reverse] at hx
      obtain ⟨f2, hf2, hor⟩ := hchar x hx
      rcases hor with h1 | h1
      · have hff : f2 = f := by
          have hx1 : x.1 = outRoot ++ f2 := by rw [h1]
          exact List.append_cancel_left (hx1 ▸ hxp : outRoot ++ f2 = outRoot ++ f)
        subst hff
        rw [h1, hc]
        rfl
      · exfalso
        exact hnosib f2 hf2 f (List.mem_append.mpr (Or.inl hf)) (h1 ▸ hxp)
    have hfind := find?_eq_of_unique _ (outRoot ++ f) c hmem huni
    show FS.lookup _ (outRoot ++ f) = some c
    simp only [FS.lookup, hfac.1]
    rw [find?_append, hfind]
    rfl
  · intro f hf hfresh
    have hdisj : List.Disjoint pre (bad :: post) := List.disjoint_of_nodup_append hnd
    have hfp : f ∉ pre := fun hc => hdisj hc (List.mem_cons_of_mem _ hf)
    have hnone : ((imagesTrace outRoot imgA webpA gw (pre ++ bad :: post)).reverse.find?
        fun x => x.1 == outRoot ++ f) = none := by
      refine List.find?_eq_none.mpr ?_
      intro x hx
      rw [List.mem_reverse] at hx
      obtain ⟨f2, hf2, hor⟩ := hchar x hx
      simp only [beq_iff_eq]
      intro hxp
      rcases hor with h1 | h1
      · have hx1 : x.1 = outRoot ++ f2 := by rw [h1]
        have hff : f2 = f :=
          List.append_cancel_left (hx1 ▸ hxp : outRoot ++ f2 = outRoot ++ f)
        exact hfp (hff ▸ hf2)
      · exact hnosib f2 hf2 f
          (List.mem_append.mpr (Or.inr (List.mem_cons_of_mem _ hf))) (h1 ▸ hxp)
    show FS.lookup _ (outRoot ++ f) = none
    simp only [FS.lookup, hfac.1]
    rw [find?_append, hnone]
    exact hfresh
  · intro p c0 hp hne hnes
    have hnone : ((imagesTrace outRoot imgA webpA gw (pre ++ bad :: post)).reverse.find?
        fun x => x.1 == p) = none := by
      refine List.find?_eq_none.mpr ?_
      intro x hx
      rw [List.mem_reverse] at hx
      obtain ⟨f2, hf2, hor⟩ := hchar x hx
      simp only [beq_iff_eq]
      intro hxp
      rcases hor with h1 | h1
      · have hx1 : x.1 = outRoot ++ f2 := by rw [h1]
        exact hne f2 hf2 (hx1 ▸ hxp)
      · exact hnes f2 hf2 (h1 ▸ hxp)
    show FS.lookup _ p = some c0
    simp only [FS.lookup, hfac.1]
    rw [find?_append, hnone]
    exact hp

/-- C2: if compression of the N-th of M files enumerated for a category
fails, the error propagates and aborts the entire run — proved for each
of the four categories of the fixed HTML, CSS, JS, images order.  In
every case the run's result is exactly the partially executed failing
loop's result applied to the state the earlier phases produced, so files
`1..N-1` of that category exist at their mirrored paths, files `N+1..M`
do not, every output already present when the category started — in
particular every earlier category's output — persists untouched, and no
later phase is ever applied.  There is no skip-and-continue and no
retry.  The hypotheses name the intermediate states: the backup phase
and each earlier category phase completed without throwing (which covers
both a disabled and a successfully processed earlier category). -/
theorem claim_c2_fail_fast (cfg : RunConfig) (ioFail : FPath → Option Err)
    (t : FTree) (outRoot : FPath) (s0 : RunState) :
    -- HTML, the first category, fails
    (∀ (s2 : RunState) (pre : List FPath) (bad : FPath) (post : List FPath) (e : Err),
      cfg.html = true →
      backupPhase cfg ioFail t outRoot { s0 with fs := s0.fs.ensureDir outRoot }
        = (s2, none) →
      globModel t htmlExts = pre ++ bad :: post →
      (∀ f ∈ pre, (cfg.htmlAdapter f).isOk = true) →
      cfg.htmlAdapter bad = .error e →
      (pre ++ bad :: post).Nodup →
      optimize cfg ioFail t outRoot s0
        = processFiles t outRoot cfg.htmlAdapter (globModel t htmlExts) s2 ∧
      (optimize cfg ioFail t outRoot s0).2 = some e ∧
      (∀ f ∈ pre, ∀ c, cfg.htmlAdapter f = .ok c →
        ((optimize cfg ioFail t outRoot s0).1).fs.lookup (outRoot ++ f) = some c) ∧
      (∀ f ∈ post, s2.fs.lookup (outRoot ++ f) = none →
        ((optimize cfg ioFail t outRoot s0).1).fs.lookup (outRoot ++ f) = none) ∧
      (∀ (p : FPath) (c0 : Content), s2.fs.lookup p = some c0 →
        (∀ f ∈ pre, outRoot ++ f ≠ p) →
        ((optimize cfg ioFail t outRoot s0).1).fs.lookup p = some c0)) ∧
    -- CSS fails, after a completed HTML phase
    (∀ (s2 s3 : RunState) (pre : List FPath) (bad : FPath) (post : List FPath) (e : Err),
      backupPhase cfg ioFail t outRoot { s0 with fs := s0.fs.ensureDir outRoot }
        = (s2, none) →
      catPhase cfg.html (processFiles t outRoot cfg.htmlAdapter (globModel t htmlExts)) s2
        = (s3, none) →
      cfg.css = true →
      globModel t cssExts = pre ++ bad :: post →
      (∀ f ∈ pre, (cfg.cssAdapter f).isOk = true) →
      cfg.cssAdapter bad = .error e →
      (pre ++ bad :: post).Nodup →
      optimize cfg ioFail t outRoot s0
        = processFiles t outRoot cfg.cssAdapter (globModel t cssExts) s3 ∧
      (optimize cfg ioFail t outRoot s0).2 = some e ∧
      (∀ f ∈ pre, ∀ c, cfg.cssAdapter f = .ok c →
        ((optimize cfg ioFail t outRoot s0).1).fs.lookup (outRoot ++ f) = some c) ∧
      (∀ f ∈ post, s3.fs.lookup (outRoot ++ f) = none →
        ((optimize cfg ioFail t outRoot s0).1).fs.lookup (outRoot ++ f) = none) ∧
      (∀ (p : FPath) (c0 : Content), s3.fs.lookup p = some c0 →
        (∀ f ∈ pre, outRoot ++ f ≠ p) →
        ((optimize cfg ioFail t outRoot s0).1).fs.lookup p = some c0)) ∧
    -- JS fails, after completed HTML and CSS phases
    (∀ (s2 s3 s4 : RunState) (pre : List FPath) (bad : FPath) (post : List FPath) (e : Err),
      backupPhase cfg ioFail t outRoot { s0 with fs := s0.fs.ensureDir outRoot }
        = (s2, none) →
      catPhase cfg.html (processFiles t outRoot cfg.htmlAdapter (globModel t htmlExts)) s2
        = (s3, none) →
      catPhase cfg.css (processFiles t outRoot cfg.cssAdapter (globModel t cssExts)) s3
        = (s4, none) →
      cfg.js = true →
      globModel t jsExts = pre ++ bad :: post →
      (∀ f ∈ pre, (cfg.jsAdapter f).isOk = true) →
      cfg.jsAdapter bad = .error e →
      (pre ++ bad :: post).Nodup →
      optimize cfg ioFail t outRoot s0
        = processFiles t outRoot cfg.jsAdapter (globModel t jsExts) s4 ∧
      (optimize cfg ioFail t outRoot s0).2 = some e ∧
      (∀ f ∈ pre, ∀ c, cfg.jsAdapter f = .ok c →
        ((optimize cfg ioFail t outRoot s0).1).fs.lookup (outRoot ++ f) = some c) ∧
      (∀ f ∈ post, s4.fs.lookup (outRoot ++ f) = none →
        ((optimize cfg ioFail t outRoot s0).1).fs.lookup (outRoot ++ f) = none) ∧
      (∀ (p : FPath) (c0 : Content), s4.fs.lookup p = some c0 →
        (∀ f ∈ pre, outRoot ++ f ≠ p) →
        ((optimize cfg ioFail t outRoot s0).1).fs.lookup p = some c0)) ∧
    -- images fail, after completed HTML, CSS and JS phases
    (∀ (s2 s3 s4 s5 : RunState) (pre : List FPath) (bad : FPath) (post : List FPath)
        (e : Err),
      backupPhase cfg ioFail t outRoot { s0 with fs := s0.fs.ensureDir outRoot }
        = (s2, none) →
      catPhase cfg.html (processFiles t outRoot cfg.htmlAdapter (globModel t htmlExts)) s2
        = (s3, none) →
      catPhase cfg.css (processFiles t outRoot cfg.cssAdapter (globModel t cssExts)) s3
        = (s4, none) →
      catPhase cfg.js (processFiles t outRoot cfg.jsAdapter (globModel t jsExts)) s4
        = (s5, none) →
      cfg.images = true →
      globModel t imageExts = pre ++ bad :: post →
      (∀ f ∈ pre, (imageDispatch cfg.imgAdapter f).isOk = true) →
      imageDispatch cfg.imgAdapter bad = .error e →
      (pre ++ bad :: post).Nodup →
      (∀ f2 ∈ pre, ∀ q ∈ pre ++ bad :: post,
        webpSibling (outRoot ++ f2) ≠ outRoot ++ q) →
      optimize cfg ioFail t outRoot s0
        = processImagesFiles t outRoot cfg.imgAdapter cfg.webpAdapter cfg.generateWebP
            (globModel t imageExts) s5 ∧
      (optimize cfg ioFail t outRoot s0).2 = some ("图片优化失败: " ++ e) ∧
      (∀ f ∈ pre, ∀ c, imageDispatch cfg.imgAdapter f = .ok c →
        ((optimize cfg ioFail t outRoot s0).1).fs.lookup (outRoot ++ f) = some c) ∧
      (∀ f ∈ post, s5.fs.lookup (outRoot ++ f) = none →
        ((optimize cfg ioFail t outRoot s0).1).fs.lookup (outRoot ++ f) = none) ∧
      (∀ (p : FPath) (c0 : Content), s5.fs.lookup p = some c0 →
        (∀ f ∈ pre, outRoot ++ f ≠ p) →
        (∀ f2 ∈ pre, webpSibling (outRoot ++ f2) ≠ p) →
        ((optimize cfg ioFail t outRoot s0).1).fs.lookup p = some c0)) := by
  refine ⟨?_, ?_, ?_, ?_⟩
  · intro s2 pre bad post e hhtml hb hsplit hok hbad hnd
    have FC := processFiles_fail_conclusions t outRoot cfg.htmlAdapter pre bad post e s2
      hok hbad hnd
    have hcat : catPhase cfg.html
        (processFiles t outRoot cfg.htmlAdapter (globModel t htmlExts)) s2
        = processFiles t outRoot cfg.htmlAdapter (globModel t htmlExts) s2 := by
      unfold catPhase
      rw [hhtml]
      simp
    have herr : (processFiles t outRoot cfg.htmlAdapter (globModel t htmlExts) s2).2
        = some e := by
      rw [hsplit]
      exact FC.1
    have hopt : optimize cfg ioFail t outRoot s0
        = processFiles t outRoot cfg.htmlAdapter (globModel t htmlExts) s2 := by
      unfold optimize
      show seqE (backupPhase cfg ioFail t outRoot) (categoriesPhase cfg t outRoot)
        { s0 with fs := s0.fs.ensureDir outRoot } = _
      rw [seqE_of_none _ _ _ _ hb]
      unfold categoriesPhase
      exact (seqE_of_error _ _ s2 e (by rw [hcat]; exact herr)).trans hcat
    refine ⟨hopt, by rw [hopt]; exact herr, ?_, ?_, ?_⟩
    · intro f hf c hc
      rw [hopt, hsplit]
      exact FC.2.1 f hf c hc
    · intro f hf hfresh
      rw [hopt, hsplit]
      exact FC.2.2.1 f hf hfresh
    · intro p c0 hp hne
      rw [hopt, hsplit]
      exact FC.2.2.2 p c0 hp hne
  · intro s2 s3 pre bad post e hb hh hcssOn hsplit hok hbad hnd
    have FC := processFiles_fail_conclusions t outRoot cfg.cssAdapter pre bad post e s3
      hok hbad hnd
    have hcat : catPhase cfg.css
        (processFiles t outRoot cfg.cssAdapter (globModel t cssExts)) s3
        = processFiles t outRoot cfg.cssAdapter (globModel t cssExts) s3 := by
      unfold catPhase
      rw [hcssOn]
      simp
    have herr : (processFiles t outRoot cfg.cssAdapter (globModel t cssExts) s3).2
        = some e := by
      rw [hsplit]
      exact FC.1
    have hopt : optimize cfg ioFail t outRoot s0
        = processFiles t outRoot cfg.cssAdapter (globModel t cssExts) s3 := by
      unfold optimize
      show seqE (backupPhase cfg ioFail t outRoot) (categoriesPhase cfg t outRoot)
        { s0 with fs := s0.fs.ensureDir outRoot } = _
      rw [seqE_of_none _ _ _ _ hb]
      unfold categoriesPhase
      rw [seqE_of_none _ _ _ _ hh]
      exact (seqE_of_error _ _ s3 e (by rw [hcat]; exact herr)).trans hcat
    refine ⟨hopt, by rw [hopt]; exact herr, ?_, ?_, ?_⟩
    · intro f hf c hc
      rw [hopt, hsplit]
      exact FC.2.1 f hf c hc
    · intro f hf hfresh
      rw [hopt, hsplit]
      exact FC.2.2.1 f hf hfresh
    · intro p c0 hp hne
      rw [hopt, hsplit]
      exact FC.2.2.2 p c0 hp hne
  · intro s2 s3 s4 pre bad post e hb hh hcss hjsOn hsplit hok hbad hnd
    have FC := processFiles_fail_conclusions t outRoot cfg.jsAdapter pre bad post e s4
      hok hbad hnd
    have hcat : catPhase cfg.js
        (processFiles t outRoot cfg.jsAdapter (globModel t jsExts)) s4
        = processFiles t outRoot cfg.jsAdapter (globModel t jsExts) s4 := by
      unfold catPhase
      rw [hjsOn]
      simp
    have herr : (processFiles t outRoot cfg.jsAdapter (globModel t jsExts) s4).2
        = some e := by
      rw [hsplit]
      exact FC.1
    have hopt : optimize cfg ioFail t outRoot s0
        = processFiles t outRoot cfg.jsAdapter (globModel t jsExts) s4 := by
      unfold optimize
      show seqE (backupPhase cfg ioFail t outRoot) (categoriesPhase cfg t outRoot)
        { s0 with fs := s0.fs.ensureDir outRoot } = _
      rw [seqE_of_none _ _ _ _ hb]
      unfold categoriesPhase
      rw [seqE_of_none _ _ _ _ hh, seqE_of_none _ _ _ _ hcss]
      exact (seqE_of_error _ _ s4 e (by rw [hcat]; exact herr)).trans hcat
    refine ⟨hopt, by rw [hopt]; exact herr, ?_, ?_, ?_⟩
    · intro f hf c hc
      rw [hopt, hsplit]
      exact FC.2.1 f hf c hc
    · intro f hf hfresh
      rw [hopt, hsplit]
      exact FC.2.2.1 f hf hfresh
    · intro p c0 hp hne
      rw [hopt, hsplit]
      exact FC.2.2.2 p c0 hp hne
  · intro s2 s3 s4 s5 pre bad post e hb hh hcss hjs himgOn hsplit hok hbad hnd hnosib
    have FC := processImagesFiles_fail_conclusions t outRoot cfg.imgAdapter
      cfg.webpAdapter cfg.generateWebP pre bad post e s5 hok hbad hnd hnosib
    have hcat : catPhase cfg.images
        (processImagesFiles t outRoot cfg.imgAdapter cfg.webpAdapter cfg.generateWebP
          (globModel t imageExts)) s5
        = processImagesFiles t outRoot cfg.imgAdapter cfg.webpAdapter cfg.generateWebP
            (globModel t imageExts) s5 := by
      unfold catPhase
      rw [himgOn]
      simp
    have herr : (processImagesFiles t outRoot cfg.imgAdapter cfg.webpAdapter
        cfg.generateWebP (globModel t imageExts) s5).2 = some ("图片优化失败: " ++ e) := by
      rw [hsplit]
      exact FC.1
    have hopt : optimize cfg ioFail t outRoot s0
        = processImagesFiles t outRoot cfg.imgAdapter cfg.webpAdapter cfg.generateWebP
            (globModel t imageExts) s5 := by
      unfold optimize
      show seqE (backupPhase cfg ioFail t outRoot) (categoriesPhase cfg t outRoot)
        { s0 with fs := s0.fs.ensureDir outRoot } = _
      rw [seqE_of_none _ _ _ _ hb]
      unfold categoriesPhase
      rw [seqE_of_none _ _ _ _ hh, seqE_of_none _ _ _ _ hcss, seqE_of_none _ _ _ _ hjs]
      exact hcat
    refine ⟨hopt, by rw [hopt]; exact herr, ?_, ?_, ?_⟩
    · intro f hf c hc
      rw [hopt, hsplit]
      exact FC.2.1 f hf c hc
    · intro f hf hfresh
      rw [hopt, hsplit]
      exact FC.2.2.1 f hf hfresh
    · intro p c0 hp hne hnes
      rw [hopt, hsplit]
      exact FC.2.2.2 p c0 hp hne hnes

/-- A mixed tree exercising all four categories: one html, three css, two
js and two jpg files; the failing configurations below break the middle
css file, the last js file and the last jpg file respectively. -/
def demoTreeM : FTree :=
  .mk [.file "a.html" "hh", .file "b.css" "c1", .file "c.css" "c2",
       .file "d.css" "c3", .file "e.js" "j1", .file "g.js" "j2",
       .file "p.jpg" "i1", .file "q.jpg" "i2"]

/-- A CSS compressor that throws on `c.css` only. -/
def demoCssFail : FPath → Except Err Content :=
  fun f => if f == ["c.css"] then .error "cssboom" else .ok "mc"

/-- A JS compressor that throws on `g.js` only. -/
def demoJsFail : FPath → Except Err Content :=
  fun f => if f == ["g.js"] then .error "jsboom" else .ok "mj"

/-- An image compressor that throws on `q.jpg` only. -/
def demoImgFail : FPath → Except Err Content :=
  fun f => if f == ["q.jpg"] then .error "imgboom" else .ok "mi"

/-- A configuration whose CSS phase fails mid-loop (everything else
succeeds). -/
def demoCfgCss : RunConfig :=
  { demoCfg with htmlAdapter := demoHtml, cssAdapter := demoCssFail }

/-- A configuration whose JS phase fails mid-loop. -/
def demoCfgJs : RunConfig :=
  { demoCfg with htmlAdapter := demoHtml, jsAdapter := demoJsFail }

/-- A configuration whose images phase fails mid-loop. -/
def demoCfgImg : RunConfig :=
  { demoCfg with htmlAdapter := demoHtml, imgAdapter := demoImgFail }

/-- The state after `ensureDir(outputDir)` from the empty initial state. -/
def wM1 : RunState := { demoState with fs := demoState.fs.ensureDir ["dist"] }

/-- The state after the completed HTML phase on the mixed tree. -/
def wMh : RunState :=
  (processFiles demoTreeM ["dist"] demoHtml (globModel demoTreeM htmlExts) wM1).1

/-- The state after the completed HTML and CSS phases on the mixed tree. -/
def wMc : RunState :=
  (processFiles demoTreeM ["dist"] demoHtml (globModel demoTreeM cssExts) wMh).1

/-- The state after the completed HTML, CSS and JS phases on the mixed
tree. -/
def wMj : RunState :=
  (processFiles demoTreeM ["dist"] demoHtml (globModel demoTreeM jsExts) wMc).1

/-- Witness for C2, one concrete run per failing category.  HTML: of the
three discovered html files the first is compressed, the error of the
second propagates, the third is absent.  CSS: same shape for the three
css files, and the HTML phase's `dist/a.html` persists.  JS: the first js
file is compressed, the second's error propagates, and the CSS phase's
`dist/c.css` persists.  Images: the first jpg is compressed, the
second's wrapped error propagates, and `dist/a.html` persists. -/
theorem claim_c2_fail_fast_witness :
    (optimize demoCfg demoIoFail demoTree2 ["dist"] demoState).2 = some "boom" ∧
    ((optimize demoCfg demoIoFail demoTree2 ["dist"] demoState).1).fs.lookup
      ["dist", "a.html"] = some "min" ∧
    ((optimize demoCfg demoIoFail demoTree2 ["dist"] demoState).1).fs.lookup
      ["dist", "c.html"] = none ∧
    (optimize demoCfgCss demoIoFail demoTreeM ["dist"] demoState).2 = some "cssboom" ∧
    ((optimize demoCfgCss demoIoFail demoTreeM ["dist"] demoState).1).fs.lookup
      ["dist", "b.css"] = some "mc" ∧
    ((optimize demoCfgCss demoIoFail demoTreeM ["dist"] demoState).1).fs.lookup
      ["dist", "d.css"] = none ∧
    ((optimize demoCfgCss demoIoFail demoTreeM ["dist"] demoState).1).fs.lookup
      ["dist", "a.html"] = some "min" ∧
    (optimize demoCfgJs demoIoFail demoTreeM ["dist"] demoState).2 = some "jsboom" ∧
    ((optimize demoCfgJs demoIoFail demoTreeM ["dist"] demoState).1).fs.lookup
      ["dist", "e.js"] = some "mj" ∧
    ((optimize demoCfgJs demoIoFail demoTreeM ["dist"] demoState).1).fs.lookup
      ["dist", "c.css"] = some "min" ∧
    (optimize demoCfgImg demoIoFail demoTreeM ["dist"] demoState).2
      = some ("图片优化失败: " ++ "imgboom") ∧
    ((optimize demoCfgImg demoIoFail demoTreeM ["dist"] demoState).1).fs.lookup
      ["dist", "p.jpg"] = some "mi" ∧
    ((optimize demoCfgImg demoIoFail demoTreeM ["dist"] demoState).1).fs.lookup
      ["dist", "a.html"] = some "min" := by
  have hH := (claim_c2_fail_fast demoCfg demoIoFail demoTree2 ["dist"] demoState).1
    wM1 [["a.html"]] ["b.html"] [["c.html"]] "boom"
    rfl rfl rfl (by decide) rfl (by decide)
  have hC := (claim_c2_fail_fast demoCfgCss demoIoFail demoTreeM ["dist"] demoState).2.1
    wM1 wMh [["b.css"]] ["c.css"] [["d.css"]] "cssboom"
    rfl rfl rfl rfl (by decide) rfl (by decide)
  have hJ := (claim_c2_fail_fast demoCfgJs demoIoFail demoTreeM ["dist"] demoState).2.2.1
    wM1 wMh wMc [["e.js"]] ["g.js"] [] "jsboom"
    rfl rfl rfl rfl rfl (by decide) rfl (by decide)
  have hI := (claim_c2_fail_fast demoCfgImg demoIoFail demoTreeM ["dist"] demoState).2.2.2
    wM1 wMh wMc wMj [["p.jpg"]] ["q.jpg"] [] "imgboom"
    rfl rfl rfl rfl rfl rfl (by decide) rfl (by decide) (by decide)
  refine ⟨hH.2.1, ?_, ?_, hC.2.1, ?_, ?_, ?_, hJ.2.1, ?_, ?_, hI.2.1, ?_, ?_⟩
  · exact hH.2.2.1 ["a.html"] (by decide) "min" rfl
  · exact hH.2.2.2.1 ["c.html"] (by decide) (by decide)
  · exact hC.2.2.1 ["b.css"] (by decide) "mc" rfl
  · exact hC.2.2.2.1 ["d.css"] (by decide) (by decide)
  · exact hC.2.2.2.2 ["dist", "a.html"] "min" (by decide) (by decide)
  · exact hJ.2.2.1 ["e.js"] (by decide) "mj" rfl
  · exact hJ.2.2.2.2 ["dist", "c.css"] "min" (by decide) (by decide)
  · exact hI.2.2.1 ["p.jpg"] (by decide) "mi" rfl
  · exact hI.2.2.2.2 ["dist", "a.html"] "min" (by decide) (by decide) (by decide)
